import Mathlib

/-!
# Verification of the log-ai search engine specification

A shallow embedding of the core of the `log-ai` repository (service
resolution and file discovery from `src/config.py`, the search executor,
local/distributed result caches and spill read-back from `src/server.py`
and `src/redis_coordinator.py`), together with theorems settling the
spec claims about it.

Python strings are modelled as `List Char` (`PyStr`); Python string
operations used by the source (`in`, `startswith`, `replace`, `strip`,
`lower`, `sorted`) are given faithful counterparts on that type.
Filesystem, subprocess and Redis I/O are at the boundary of the model:
functions that consume their *results* take those results as arguments.
-/

namespace LogAI

/-- Python `str` modelled as a list of characters. -/
abbrev PyStr := List Char

/-- Python substring test `a in b` (infix containment). -/
def pyIn (a b : PyStr) : Bool := decide (a <:+: b)

/-- Python `b.startswith(a)` (prefix containment). -/
def pyStartsWith (b a : PyStr) : Bool := a.isPrefixOf b

/-- Python `s.strip()`: drop leading and trailing whitespace. -/
def pyStrip (s : PyStr) : PyStr :=
  ((s.dropWhile Char.isWhitespace).reverse.dropWhile Char.isWhitespace).reverse

/-- Python `s.lower()` (ASCII case folding; the catalog's names are ASCII). -/
def pyLower (s : PyStr) : PyStr := s.map Char.toLower

/-- Python `s.replace(a, b)` for a single-character pattern. -/
def pyReplaceChar (s : PyStr) (a b : Char) : PyStr :=
  s.map fun c => if c = a then b else c

/-- One fuel-indexed step list of Python `s.replace(pat, rep)`:
left-to-right, non-overlapping. Fuel bounds the scan by the input length. -/
def pyReplaceFuel (pat rep : PyStr) : Nat → PyStr → PyStr
  | 0, s => s
  | _ + 1, [] => []
  | fuel + 1, c :: rest =>
    if pat.isPrefixOf (c :: rest) then
      rep ++ pyReplaceFuel pat rep fuel (List.drop (pat.length - 1) rest)
    else
      c :: pyReplaceFuel pat rep fuel rest

/-- Python `s.replace(pat, rep)` for a non-empty pattern. -/
def pyReplace (s pat rep : PyStr) : PyStr := pyReplaceFuel pat rep s.length s

/-! ## Service catalog (`src/config.py`) -/

/-- Structure `ServiceConfig` from `src/config.py`, restricted to the fields the core
reads: the unique service name, the date/hour path template, and the
optional alternate (Sentry) name. -/
structure ServiceConfig where
  name : PyStr
  path_pattern : PyStr
  sentry_service_name : Option PyStr := none
deriving DecidableEq, Repr

/-- Function `normalize_service_name` from `src/config.py`:
`name.strip().lower().replace('_', '-').replace(' ', '-')`. -/
def normalize_service_name (name : PyStr) : PyStr :=
  pyReplaceChar (pyReplaceChar (pyLower (pyStrip name)) '_' '-') ' ' '-'

/-- The ordered locale-prefix list of `get_base_service_name`. -/
def basePrefixes : List PyStr :=
  ["hub-ca-".toList, "hub-us-".toList, "hub-na-".toList,
   "edr-na-".toList, "edrtier3-na-".toList, "hub-".toList]

/-- Function `get_base_service_name` from `src/config.py`: normalize, then strip the
first matching prefix of `basePrefixes` (the for-loop returns on the first
hit). -/
def get_base_service_name (service_name : PyStr) : PyStr :=
  let normalized := normalize_service_name service_name
  match basePrefixes.find? (fun p => p.isPrefixOf normalized) with
  | some p => normalized.drop p.length
  | none => normalized

/-- The locale filter at the top of `resolve_service_names`: `na` selects the
three `-na-` prefix families, any other locale selects `hub-<locale>-`. -/
def localeFilter (locale : Option PyStr) (services : List ServiceConfig) :
    List ServiceConfig :=
  match locale with
  | none => services
  | some loc =>
    let locLower := pyLower loc
    if locLower = "na".toList then
      services.filter fun s =>
        pyStartsWith s.name "hub-na-".toList
        || pyStartsWith s.name "edr-na-".toList
        || pyStartsWith s.name "edrtier3-na-".toList
    else
      services.filter fun s => pyStartsWith s.name ("hub-".toList ++ locLower ++ "-".toList)

/-- Strategy 1 of `resolve_service_names`: exact normalized match on the
service name. -/
def strategy1 (q : PyStr) (cands : List ServiceConfig) : List ServiceConfig :=
  cands.filter fun s => normalize_service_name s.name = q

/-- Strategy 2: exact normalized match on `sentry_service_name` when set. -/
def strategy2 (q : PyStr) (cands : List ServiceConfig) : List ServiceConfig :=
  cands.filter fun s =>
    match s.sentry_service_name with
    | some sn => normalize_service_name sn = q
    | none => false

/-- Strategy 3: base-name equality after stripping locale prefixes from both
query and service name. -/
def strategy3 (q : PyStr) (cands : List ServiceConfig) : List ServiceConfig :=
  cands.filter fun s => get_base_service_name s.name = get_base_service_name q

/-- Strategy 4 as the source implements it: the query must be *contained in*
the normalized service name, the base name, or the normalized alternate
name. (Containment is checked in this one direction only.) -/
def strategy4 (q : PyStr) (cands : List ServiceConfig) : List ServiceConfig :=
  cands.filter fun s =>
    pyIn q (normalize_service_name s.name)
    || pyIn q (get_base_service_name s.name)
    || (match s.sentry_service_name with
        | some sn => pyIn q (normalize_service_name sn)
        | none => false)

/-- Function `resolve_service_names` from `src/config.py`: filter candidates by
locale, then run the four matching strategies in order, returning the first
non-empty result (each strategy's for-loop appends matches in catalog
order, i.e. is a filter). -/
def resolve_service_names (query : PyStr) (services : List ServiceConfig)
    (locale : Option PyStr := none) : List ServiceConfig :=
  let normalized_query := normalize_service_name query
  let cands := localeFilter locale services
  let m1 := strategy1 normalized_query cands
  if m1 ≠ [] then m1 else
  let m2 := strategy2 normalized_query cands
  if m2 ≠ [] then m2 else
  let m3 := strategy3 normalized_query cands
  if m3 ≠ [] then m3 else
  strategy4 normalized_query cands

/-! ## Search handler (`src/server.py`) -/

/-- Expression `list(dict.fromkeys(services))` from `search_logs_handler`: remove
duplicates while preserving the order of first occurrences. -/
def dedupFirst (l : List PyStr) : List PyStr :=
  go [] l
where
  /-- Keep an element iff its key is not yet in the dict. -/
  go (seen : List PyStr) : List PyStr → List PyStr
    | [] => []
    | x :: xs => if x ∈ seen then go seen xs else x :: go (x :: seen) xs

/-- The resolution loop of `search_logs_handler`: resolve each query token
in order, returning the first token with an empty resolution as a terminal
error, otherwise extending the name list with each token's matches. -/
def resolveLoop (tokens : List PyStr) (services : List ServiceConfig)
    (locale : Option PyStr) : Except PyStr (List PyStr) :=
  match tokens with
  | [] => .ok []
  | t :: ts =>
    let matched := resolve_service_names t services locale
    if matched = [] then .error t
    else
      match resolveLoop ts services locale with
      | .error e => .error e
      | .ok rest => .ok ((matched.map (·.name)) ++ rest)

/-- A match record as built by the scanner adapters
(`file:line:content`, tagged with the service). The JSON decoding of
`content` is opportunistic in the source and irrelevant to the claims, so
`content` stays a string here. -/
structure Match where
  service : PyStr
  file : PyStr
  line : Nat
  content : PyStr
deriving DecidableEq, Repr

/-- State of `ProgressTracker` (`src/server.py`): `__init__(total_files,
services)` stores `total_files` as given and zeroes the other counters.
`_execute_search` instantiates it as `ProgressTracker(0, services)`. -/
structure ProgressTracker where
  total_files : Nat
  files_searched : Nat
  total_matches : Nat
deriving DecidableEq, Repr

/-- Tracker `ProgressTracker(0, services)` as constructed in `_execute_search`. -/
def progressInit : ProgressTracker := { total_files := 0, files_searched := 0, total_matches := 0 }

/-- Method `ProgressTracker.add_match`: bump the total match counter (the
per-service map is not read by any claim). -/
def addMatch (p : ProgressTracker) : ProgressTracker :=
  { p with total_matches := p.total_matches + 1 }

/-- The effect of one scanner run (`stream_ripgrep_search` /
`stream_grep_search`) on the tracker: it *assigns*
`progress.files_searched = len(files)` (overwriting, not accumulating) and
calls `add_match` once per streamed match. -/
def scanProgress (p : ProgressTracker) (files : List PyStr) (ms : List Match) :
    ProgressTracker :=
  ms.foldl (fun acc _ => addMatch acc) { p with files_searched := files.length }

/-- Tracker state after the per-service scans of one search: each service
contributes its discovered file list and its streamed matches. The scans
run concurrently, but every tracker update commutes with the others except
the `files_searched` assignment, for which any serialization gives some
service's file count; a left fold is one such serialization. -/
def runScans (perService : List (List PyStr × List Match)) : ProgressTracker :=
  perService.foldl (fun p sv => scanProgress p sv.1 sv.2) progressInit

/-- Result metadata as assembled by `_execute_search` (the fields the
claims read). -/
structure Metadata where
  files_searched : Nat
  total_matches : Nat
  cached : Bool
  services : List PyStr
  error : Option PyStr
  partialResult : Bool
  overflow : Bool
deriving DecidableEq, Repr

/-- The timeout message `f"Search auto-cancelled after {n} seconds"`,
abstracted over the configured number of seconds. -/
def timeoutMessage : PyStr := "Search auto-cancelled".toList

/-- The result-collection loop of `_execute_search`: starting from
`all_matches = []` and `error_occurred = None`, walk the gathered
per-service outcomes; an exception records its message (later ones
overwrite), a list extends `all_matches`. -/
def collectResults (results : List (Except PyStr (List Match))) :
    List Match × Option PyStr :=
  results.foldl
    (fun acc r =>
      match r with
      | .error e => (acc.1, some e)
      | .ok ms => (acc.1 ++ ms, acc.2))
    ([], none)

/-- What `_execute_search` holds after the `asyncio.wait_for` block: on
`TimeoutError` the `results` assignment never happened, so `all_matches`
keeps its initial `[]` and only the timeout message is recorded; otherwise
the collection loop runs. -/
def gatherOutcome (timedOut : Bool) (results : List (Except PyStr (List Match))) :
    List Match × Option PyStr :=
  if timedOut then ([], some timeoutMessage) else collectResults results

/-- Metadata assembly of `_execute_search` (lines building `metadata`,
the `partial`/`error` flags, and the preview/overflow selection):
`files_searched` is read from `progress.total_files`; `overflow` is set
only in the branch where `save_matches_to_file` succeeded; on a failed
save the preview is still truncated but `overflow` stays unset. Returns
the metadata together with the preview list. -/
def assembleResult (progress : ProgressTracker) (services : List PyStr)
    (allMatches : List Match) (errorOccurred : Option PyStr)
    (saveOk : Bool) (previewLimit : Nat) : Metadata × List Match :=
  let base : Metadata :=
    { files_searched := progress.total_files
      total_matches := allMatches.length
      cached := false
      services := services
      error := errorOccurred
      partialResult := errorOccurred.isSome
      overflow := false }
  if saveOk then
    if allMatches.length > previewLimit then
      ({ base with overflow := true }, allMatches.take previewLimit)
    else
      (base, allMatches)
  else
    (if allMatches.length > previewLimit then (base, allMatches.take previewLimit)
     else (base, allMatches))

/-- End-to-end model of the non-cached path of `_execute_search`: the
per-service scans stream into the tracker; the gather either times out or
yields each service's task outcome; metadata and preview are assembled.
`perService` carries, per service, the discovered files, the matches it
streamed before the gather resolved, and its task outcome (`none` when
cancelled by the deadline). -/
def executeSearch (services : List PyStr)
    (perService : List (List PyStr × List Match))
    (timedOut : Bool) (results : List (Except PyStr (List Match)))
    (saveOk : Bool) (previewLimit : Nat) : Metadata × List Match :=
  let progress := runScans perService
  let out := gatherOutcome timedOut results
  assembleResult progress services out.1 out.2 saveOk previewLimit

/-! ## Spill read-back (`read_search_file_handler` in `src/server.py`) -/

/-- Outcomes of the validation prefix of `read_search_file_handler`. -/
inductive ReadFileOutcome where
  | invalidPath
  | invalidName
  | notFound
  | readFile
deriving DecidableEq, Repr

/-- Python `Path(p).name`: the final path component. -/
def pathName (p : PyStr) : PyStr :=
  match (p.splitOn '/').getLast? with
  | some n => n
  | none => []

/-- The path validation of `read_search_file_handler`, applied to the
already-resolved path (`Path(...).resolve()` has been run on both the
input and the output directory, so both are symlink-free absolute
strings): reject unless `str(file_path).startswith(str(base_dir))`, then
unless the file name starts with `logai-`, then unless the file exists.
Only a `readFile` outcome goes on to open the file. -/
def readSearchFileCheck (filePath baseDir : PyStr) (fileExists : Bool) :
    ReadFileOutcome :=
  if ¬ pyStartsWith filePath baseDir then .invalidPath
  else if ¬ pyStartsWith (pathName filePath) "logai-".toList then .invalidName
  else if ¬ fileExists then .notFound
  else .readFile

/-- Living inside the output directory tree: the path is the directory
itself or extends it past a `/` separator. -/
def insideTree (p base : PyStr) : Prop :=
  p = base ∨ (base ++ ['/']) <+: p

/-! ## File discovery (`find_log_files` in `src/config.py`)

UTC instants are modelled as seconds since the Unix epoch (`Nat`), which
is Python `datetime` semantics: comparison is chronological order,
`timedelta(hours=1)` adds 3600 seconds, and `strftime` reads the civil
UTC components. -/

/-- A decimal digit character (`chr(48 + d)`). -/
def digitChar (d : Nat) : Char := Char.ofNat (48 + d % 10)

/-- Two-digit zero-padded decimal (`%02d` for values below 100). -/
def pad2 (n : Nat) : PyStr := [digitChar (n / 10), digitChar n]

/-- Four-digit zero-padded decimal (`%04d` for values below 10000). -/
def pad4 (n : Nat) : PyStr :=
  [digitChar (n / 1000), digitChar (n / 100), digitChar (n / 10), digitChar n]

/-- Civil date (year, month, day) of a day count since 1970-01-01, the
standard era-based Gregorian conversion used by `datetime`'s UTC
accessors. -/
def civilFromDays (z : Nat) : Nat × Nat × Nat :=
  let zd := z + 719468
  let era := zd / 146097
  let doe := zd % 146097
  let yoe := (doe - doe / 1460 + doe / 36524 - doe / 146096) / 365
  let doy := doe - (365 * yoe + yoe / 4 - yoe / 100)
  let mp := (5 * doy + 2) / 153
  let d := doy - (153 * mp + 2) / 5 + 1
  let m := if mp < 10 then mp + 3 else mp - 9
  (yoe + era * 400 + (if m ≤ 2 then 1 else 0), m, d)

/-- Component `strftime("%Y")` of an epoch instant. -/
def yearOf (t : Nat) : Nat := (civilFromDays (t / 86400)).1

/-- Component `strftime("%m")` of an epoch instant. -/
def monthOf (t : Nat) : Nat := (civilFromDays (t / 86400)).2.1

/-- Component `strftime("%d")` of an epoch instant. -/
def dayOf (t : Nat) : Nat := (civilFromDays (t / 86400)).2.2

/-- Component `strftime("%H")` of an epoch instant. -/
def hourOf (t : Nat) : Nat := t / 3600 % 24

/-- The hour-iteration loop of `find_log_files`:
`current = start_hour; while current <= end_time: append(current);
current += timedelta(hours=1)`. Note the loop starts at the *exact* start
instant (no flooring) and keeps its sub-hour offset at every step. -/
def timesToCheck (current endTime : Nat) : List Nat :=
  if current ≤ endTime then current :: timesToCheck (current + 3600) endTime
  else []
termination_by endTime + 1 - current
decreasing_by omega

/-- Placeholder substitution of `find_log_files` for one instant:
`{YYYY}`, `{MM}`, `{DD}` from the instant's UTC date, `{HH}` from its UTC
hour, `{guid}` as the glob wildcard. -/
def expandPattern (tmpl : PyStr) (t : Nat) : PyStr :=
  pyReplace
    (pyReplace
      (pyReplace
        (pyReplace (pyReplace tmpl "{YYYY}".toList (pad4 (yearOf t)))
          "{MM}".toList (pad2 (monthOf t)))
        "{DD}".toList (pad2 (dayOf t)))
      "{HH}".toList (pad2 (hourOf t)))
    "{guid}".toList "*".toList

/-- Function `find_log_files` up to the filesystem boundary: the glob *patterns* it
expands (each pattern is then handed to `glob.glob`; the project-root
prefixing of relative templates is path plumbing outside the claims). A
template without date placeholders is globbed once as-is; otherwise one
pattern per instant of the hourly iteration. -/
def findLogFilePatterns (tmpl : PyStr) (startTime endTime : Nat) : List PyStr :=
  if ¬ pyIn "{YYYY}".toList tmpl ∧ ¬ pyIn "{MM}".toList tmpl then [tmpl]
  else (timesToCheck startTime endTime).map (expandPattern tmpl)

/-! ## Local result cache (`SearchCache` in `src/server.py`)

Entries are reduced to key and serialized byte size: the stored
matches/metadata payload and the TTL timestamp play no role in the cap
claims. The `OrderedDict` is a list ordered oldest-first
(`popitem(last=False)` pops the head; a plain assignment to an existing
key keeps its position). The serialized size is computed by `json.dumps`
at the boundary of the model and enters as an argument. -/

structure CacheEntry where
  key : PyStr
  size_bytes : Nat
deriving DecidableEq, Repr

structure SearchCache where
  entries : List CacheEntry
  total_size_bytes : Nat
deriving DecidableEq, Repr

/-- Fresh `SearchCache()`. -/
def emptyCache : SearchCache := { entries := [], total_size_bytes := 0 }

/-- Method `_evict_until_fits`, as a loop over the entry list:
`while entries and (total + needed > max_bytes or len(entries) >=
max_entries): evict LRU head`. -/
def evictUntilFitsGo (maxBytes maxEntries needed : Nat) :
    List CacheEntry → Nat → List CacheEntry × Nat
  | [], total => ([], total)
  | e :: rest, total =>
    if total + needed > maxBytes ∨ (e :: rest).length ≥ maxEntries then
      evictUntilFitsGo maxBytes maxEntries needed rest (total - e.size_bytes)
    else (e :: rest, total)

/-- Method `SearchCache.put`: skip entries whose serialized size exceeds one
tenth of the byte cap (`size_bytes > max_bytes / 10`; for integer sizes
the float comparison of the source is exactly `10 * size_bytes >
max_bytes`), evict until the entry fits, then store — subtracting the old
size first when the key is already present (the assignment keeps the
existing position). -/
def cachePut (maxBytes maxEntries : Nat) (c : SearchCache) (key : PyStr)
    (size_bytes : Nat) : SearchCache :=
  if 10 * size_bytes > maxBytes then c
  else if (evictUntilFitsGo maxBytes maxEntries size_bytes c.entries
      c.total_size_bytes).1.any (fun e => e.key = key) then
    { entries :=
        (evictUntilFitsGo maxBytes maxEntries size_bytes c.entries
          c.total_size_bytes).1.map
          (fun e => if e.key = key then ⟨key, size_bytes⟩ else e)
      total_size_bytes :=
        (evictUntilFitsGo maxBytes maxEntries size_bytes c.entries
          c.total_size_bytes).2
          - ((((evictUntilFitsGo maxBytes maxEntries size_bytes c.entries
                c.total_size_bytes).1.find? (fun e => e.key = key)).map
              (·.size_bytes)).getD 0)
          + size_bytes }
  else
    { entries :=
        (evictUntilFitsGo maxBytes maxEntries size_bytes c.entries
          c.total_size_bytes).1 ++ [⟨key, size_bytes⟩]
      total_size_bytes :=
        (evictUntilFitsGo maxBytes maxEntries size_bytes c.entries
          c.total_size_bytes).2 + size_bytes }

/-- A sequence of `put` operations against a fresh cache. -/
def runPuts (maxBytes maxEntries : Nat) (ops : List (PyStr × Nat)) : SearchCache :=
  ops.foldl (fun c op => cachePut maxBytes maxEntries c op.1 op.2) emptyCache

/-- Total serialized bytes actually stored. -/
def cacheSize (es : List CacheEntry) : Nat := (es.map (·.size_bytes)).sum

/-! ## Distributed result cache (`RedisCache` in `src/redis_coordinator.py`)

The Redis string store is a key/size association list (payload and TTL
elided as in the local model). `RedisCache.put` serializes the entry and
calls `SETEX key ttl data` unconditionally: there is no size check, no
entry-count check and no LRU bookkeeping in the method body. -/

/-- Redis `SETEX`: overwrite the value under `key`, or append a fresh key. -/
def redisSetex (store : List (PyStr × Nat)) (key : PyStr) (size : Nat) :
    List (PyStr × Nat) :=
  if store.any (fun kv => kv.1 = key) then
    store.map (fun kv => if kv.1 = key then (key, size) else kv)
  else store ++ [(key, size)]

/-- Method `RedisCache.put` as it acts on the store: a single unconditional
`SETEX` of the serialized entry. -/
def redisPut (store : List (PyStr × Nat)) (key : PyStr) (size : Nat) :
    List (PyStr × Nat) :=
  redisSetex store key size

/-! ## Cache fingerprint (`_make_key` in `src/server.py` and
`src/redis_coordinator.py`)

Both implementations build the string
`f"{tuple(sorted(services))}:{query}:{json.dumps(time_range, sort_keys=True)}"`
and hash it with MD5. The MD5 digest is a fixed deterministic function of
this string, so the fingerprint's algebra is settled on the pre-hash
string. The local implementation first converts the `datetime` window
values to `isoformat()` strings. -/

/-- Python string ordering: code-point lexicographic (what `sorted` uses). -/
def strLe : PyStr → PyStr → Bool
  | [], _ => true
  | _ :: _, [] => false
  | a :: as, b :: bs => if a < b then true else if b < a then false else strLe as bs

/-- Python `sorted(services)`. -/
def pySorted (l : List PyStr) : List PyStr := l.mergeSort strLe

/-- Repr escaping inside single quotes: backslash and single quote. -/
def escSq : PyStr → PyStr
  | [] => []
  | c :: rest =>
    if c = '\\' then '\\' :: '\\' :: escSq rest
    else if c = '\'' then '\\' :: '\'' :: escSq rest
    else c :: escSq rest

/-- Repr escaping inside double quotes: backslash only (this mode is
chosen precisely when the string holds no double quote). -/
def escDq : PyStr → PyStr
  | [] => []
  | c :: rest =>
    if c = '\\' then '\\' :: '\\' :: escDq rest
    else c :: escDq rest

/-- Python `repr` of a `str` (printable characters): single quotes, unless
the string contains `'` but no `"`, in which case double quotes. -/
def pyStrRepr (s : PyStr) : PyStr :=
  if '\'' ∈ s ∧ ¬ '"' ∈ s then '"' :: escDq s ++ ['"']
  else '\'' :: escSq s ++ ['\'']

/-- The element/separator part of a tuple `repr` for two or more
elements: items joined by `", "`, closed by `)`. -/
def pyTupleBody : List PyStr → PyStr
  | [] => [')']
  | [x] => pyStrRepr x ++ [')']
  | x :: xs => pyStrRepr x ++ ',' :: ' ' :: pyTupleBody xs

/-- Python `repr` of a tuple of strings: `()`, `('x',)` with the trailing
comma, or `('x', 'y', ...)`. -/
def pyTupleRepr (l : List PyStr) : PyStr :=
  match l with
  | [] => "()".toList
  | [x] => '(' :: pyStrRepr x ++ ',' :: ')' :: []
  | x :: xs => '(' :: pyStrRepr x ++ ',' :: ' ' :: pyTupleBody xs

/-- A Python `datetime` value as carried in the time-range dict (UTC,
second precision, as produced by `dateutil.parser.isoparse` on the
RFC3339 inputs). -/
structure PyDateTime where
  year : Nat
  month : Nat
  day : Nat
  hour : Nat
  minute : Nat
  second : Nat
deriving DecidableEq, Repr

/-- Method `datetime.isoformat()` of a UTC instant:
`YYYY-MM-DDTHH:MM:SS+00:00`. -/
def isoformat (dt : PyDateTime) : PyStr :=
  pad4 dt.year ++ '-' :: pad2 dt.month ++ '-' :: pad2 dt.day
    ++ 'T' :: pad2 dt.hour ++ ':' :: pad2 dt.minute ++ ':' :: pad2 dt.second
    ++ "+00:00".toList

/-- Field bounds under which `isoformat` prints fixed-width components
(every real `datetime` satisfies them). -/
def validDT (dt : PyDateTime) : Prop :=
  dt.year < 10000 ∧ dt.month < 100 ∧ dt.day < 100 ∧ dt.hour < 100
    ∧ dt.minute < 100 ∧ dt.second < 100

/-- Serialization `json.dumps(time_range_serializable, sort_keys=True)` of the local
`_make_key`: keys sorted (`end_datetime` before `start_datetime`),
default separators, `datetime` values replaced by `isoformat()`. -/
def timeRangeJson (startDT endDT : PyDateTime) : PyStr :=
  "\x7b\"end_datetime\": \"".toList ++ isoformat endDT
    ++ "\", \"start_datetime\": \"".toList ++ isoformat startDT
    ++ "\"\x7d".toList

/-- The pre-MD5 key string of `SearchCache._make_key`:
`f"{tuple(sorted(services))}:{query}:{time_str}"`. The MD5 hexdigest the
source returns is a fixed function of this string. -/
def makeKeyString (services : List PyStr) (query : PyStr)
    (w : PyDateTime × PyDateTime) : PyStr :=
  pyTupleRepr (pySorted services) ++ ':' :: query ++ ':' :: timeRangeJson w.1 w.2

/-- Serialization via `json.dumps` of an integer-valued time range, as `RedisCache._make_key`
serializes its declared `Dict[str, int]` window. -/
def intRangeJson (startV endV : Nat) : PyStr :=
  "\x7b\"end_datetime\": ".toList ++ (toString endV).toList
    ++ ", \"start_datetime\": ".toList ++ (toString startV).toList
    ++ "\x7d".toList

/-- The pre-MD5 key string of `RedisCache._make_key` (the distributed
implementation namespaces the digest under `log-ai:cache:`, which does not
affect the fingerprint algebra). -/
def redisKeyString (services : List PyStr) (query : PyStr) (w : Nat × Nat) : PyStr :=
  pyTupleRepr (pySorted services) ++ ':' :: query ++ ':' :: intRangeJson w.1 w.2

/-! ## Spec-side descriptions used for refinement statements -/

/-- First non-empty list of a sequence of attempts, the spec's description
of the resolution strategy cascade. -/
def firstNonempty (ls : List (List α)) : List α :=
  ((ls.find? (fun l => !l.isEmpty)).getD [])

/-- One service's matching condition across the four strategies, with the
fourth strategy in the single direction the source implements: the query
contained in the normalized service name, the base name, or the
normalized alternate name. -/
def matchesSomeStrategy (q : PyStr) (s : ServiceConfig) : Prop :=
  normalize_service_name s.name = q
    ∨ (∃ sn, s.sentry_service_name = some sn ∧ normalize_service_name sn = q)
    ∨ get_base_service_name s.name = get_base_service_name q
    ∨ pyIn q (normalize_service_name s.name) = true
    ∨ pyIn q (get_base_service_name s.name) = true
    ∨ (∃ sn, s.sentry_service_name = some sn
          ∧ pyIn q (normalize_service_name sn) = true)

/-- Observable outcome of `search_logs_handler` up to the point the claims
speak about: either a synchronous `Service not found` error for a token
(no cache consulted, no admission slot, no scan), or execution of
`_execute_search`, which always consults the cache and acquires the
global slot exactly when the cache missed. Timestamp parsing sits between
the two in the source and is orthogonal to these claims. -/
inductive HandlerStep where
  | terminalError (token : PyStr)
  | executed (services : List PyStr) (consultedCache : Bool) (acquiredSlot : Bool)
deriving DecidableEq, Repr

/-- Control flow of `search_logs_handler` feeding `_execute_search`: the
resolution loop short-circuits on an unresolvable token; otherwise the
deduplicated name list is searched, the cache is consulted, and the
global semaphore is entered iff the cache missed. -/
def searchLogsHandler (tokens : List PyStr) (svcs : List ServiceConfig)
    (loc : Option PyStr) (cacheHit : Bool) : HandlerStep :=
  match resolveLoop tokens svcs loc with
  | .error t => .terminalError t
  | .ok names => .executed (dedupFirst names) true (!cacheHit)

/-! # Theorems

Helper lemmas come first, then one theorem per claim (with its witness or
counterexample where required). -/

/-- A catalog entry used by several concrete evaluations. -/
def authSvc : ServiceConfig :=
  { name := "hub-ca-auth".toList
    path_pattern := "/var/log/{YYYY}/{MM}/{DD}/{HH}/app.log".toList }

theorem strategy4_mem {q : PyStr} {cands : List ServiceConfig} {s : ServiceConfig} :
    s ∈ strategy4 q cands ↔
      s ∈ cands ∧ (pyIn q (normalize_service_name s.name) = true
        ∨ pyIn q (get_base_service_name s.name) = true
        ∨ (∃ sn, s.sentry_service_name = some sn
              ∧ pyIn q (normalize_service_name sn) = true)) := by
  unfold strategy4
  rw [List.mem_filter]
  constructor
  · rintro ⟨hm, hcond⟩
    refine ⟨hm, ?_⟩
    rcases Bool.or_eq_true_iff.mp hcond with h | h
    · rcases Bool.or_eq_true_iff.mp h with h' | h'
      · exact Or.inl h'
      · exact Or.inr (Or.inl h')
    · cases hsn : s.sentry_service_name with
      | none => rw [hsn] at h; simp at h
      | some sn => rw [hsn] at h; exact Or.inr (Or.inr ⟨sn, rfl, h⟩)
  · rintro ⟨hm, hcond⟩
    refine ⟨hm, ?_⟩
    rcases hcond with h | h | ⟨sn, hsn, h⟩
    · exact Bool.or_eq_true_iff.mpr (Or.inl (Bool.or_eq_true_iff.mpr (Or.inl h)))
    · exact Bool.or_eq_true_iff.mpr (Or.inl (Bool.or_eq_true_iff.mpr (Or.inr h)))
    · rw [hsn]
      exact Bool.or_eq_true_iff.mpr (Or.inr h)

theorem strategy_mem_iff {q : PyStr} {cands : List ServiceConfig} {s : ServiceConfig} :
    (s ∈ strategy1 q cands ∨ s ∈ strategy2 q cands ∨ s ∈ strategy3 q cands
        ∨ s ∈ strategy4 q cands) ↔
      s ∈ cands ∧ matchesSomeStrategy q s := by
  rw [strategy4_mem]
  unfold strategy1 strategy2 strategy3 matchesSomeStrategy
  simp only [List.mem_filter, decide_eq_true_eq]
  constructor
  · rintro (⟨hm, h⟩ | ⟨hm, h⟩ | ⟨hm, h⟩ | ⟨hm, h⟩)
    · exact ⟨hm, Or.inl h⟩
    · refine ⟨hm, Or.inr (Or.inl ?_)⟩
      cases hsn : s.sentry_service_name with
      | none => rw [hsn] at h; simp at h
      | some sn =>
        rw [hsn] at h
        simp only [decide_eq_true_eq] at h
        exact ⟨sn, rfl, h⟩
    · exact ⟨hm, Or.inr (Or.inr (Or.inl h))⟩
    · rcases h with h | h | h
      · exact ⟨hm, Or.inr (Or.inr (Or.inr (Or.inl h)))⟩
      · exact ⟨hm, Or.inr (Or.inr (Or.inr (Or.inr (Or.inl h))))⟩
      · exact ⟨hm, Or.inr (Or.inr (Or.inr (Or.inr (Or.inr h))))⟩
  · rintro ⟨hm, h | ⟨sn, hsn, h⟩ | h | h | h | h⟩
    · exact Or.inl ⟨hm, h⟩
    · refine Or.inr (Or.inl ⟨hm, ?_⟩)
      rw [hsn]
      simpa using h
    · exact Or.inr (Or.inr (Or.inl ⟨hm, h⟩))
    · exact Or.inr (Or.inr (Or.inr ⟨hm, Or.inl h⟩))
    · exact Or.inr (Or.inr (Or.inr ⟨hm, Or.inr (Or.inl h)⟩))
    · exact Or.inr (Or.inr (Or.inr ⟨hm, Or.inr (Or.inr h)⟩))

theorem firstNonempty_cons_nil (ls : List (List α)) :
    firstNonempty ([] :: ls) = firstNonempty ls := by
  simp [firstNonempty, List.find?]

theorem firstNonempty_cons_ne {l : List α} (ls : List (List α)) (h : l ≠ []) :
    firstNonempty (l :: ls) = l := by
  cases l with
  | nil => exact absurd rfl h
  | cons x xs => simp [firstNonempty, List.find?]

theorem firstNonempty_nil : firstNonempty ([] : List (List α)) = [] := rfl

theorem resolve_eq_firstNonempty (q : PyStr) (svcs : List ServiceConfig)
    (loc : Option PyStr) :
    resolve_service_names q svcs loc =
      firstNonempty
        [strategy1 (normalize_service_name q) (localeFilter loc svcs),
         strategy2 (normalize_service_name q) (localeFilter loc svcs),
         strategy3 (normalize_service_name q) (localeFilter loc svcs),
         strategy4 (normalize_service_name q) (localeFilter loc svcs)] := by
  simp only [resolve_service_names]
  set nq := normalize_service_name q
  set c := localeFilter loc svcs
  by_cases h1 : strategy1 nq c = []
  · by_cases h2 : strategy2 nq c = []
    · by_cases h3 : strategy3 nq c = []
      · rw [h1, h2, h3, firstNonempty_cons_nil, firstNonempty_cons_nil,
            firstNonempty_cons_nil]
        by_cases h4 : strategy4 nq c = []
        · rw [h4, firstNonempty_cons_nil, firstNonempty_nil]
          simp [h4]
        · rw [firstNonempty_cons_ne _ h4]
          simp
      · rw [h1, h2, firstNonempty_cons_nil, firstNonempty_cons_nil,
            firstNonempty_cons_ne _ h3]
        simp [h3]
    · rw [h1, firstNonempty_cons_nil, firstNonempty_cons_ne _ h2]
      simp [h2]
  · rw [firstNonempty_cons_ne _ h1]
    simp [h1]

/-- Claim C5 (amended): resolution tries the four strategies in order and
returns the first non-empty result, but the fourth strategy checks
substring containment in one direction only — the query must be contained
in the service name, base name, or alternate name; consequently the
resolved set is non-empty exactly when some locale-filtered candidate
satisfies one of the four one-directional conditions. -/
theorem resolution_strategy_cascade (q : PyStr) (svcs : List ServiceConfig)
    (loc : Option PyStr) :
    resolve_service_names q svcs loc =
        firstNonempty
          [strategy1 (normalize_service_name q) (localeFilter loc svcs),
           strategy2 (normalize_service_name q) (localeFilter loc svcs),
           strategy3 (normalize_service_name q) (localeFilter loc svcs),
           strategy4 (normalize_service_name q) (localeFilter loc svcs)]
      ∧ (resolve_service_names q svcs loc ≠ [] ↔
          ∃ s ∈ localeFilter loc svcs,
            matchesSomeStrategy (normalize_service_name q) s) := by
  refine ⟨resolve_eq_firstNonempty q svcs loc, ?_⟩
  simp only [resolve_service_names]
  set nq := normalize_service_name q
  set c := localeFilter loc svcs
  have hiff : ∀ s : ServiceConfig,
      (s ∈ strategy1 nq c ∨ s ∈ strategy2 nq c ∨ s ∈ strategy3 nq c
        ∨ s ∈ strategy4 nq c) ↔ s ∈ c ∧ matchesSomeStrategy nq s :=
    fun _ => strategy_mem_iff
  by_cases h1 : strategy1 nq c = []
  · by_cases h2 : strategy2 nq c = []
    · by_cases h3 : strategy3 nq c = []
      · rw [if_neg (by simpa using h1), if_neg (by simpa using h2),
            if_neg (by simpa using h3)]
        constructor
        · intro hne
          obtain ⟨s, hs⟩ := List.exists_mem_of_ne_nil _ hne
          have := (hiff s).mp (Or.inr (Or.inr (Or.inr hs)))
          exact ⟨s, this.1, this.2⟩
        · rintro ⟨s, hmem, hmatch⟩
          rcases (hiff s).mpr ⟨hmem, hmatch⟩ with h | h | h | h
          · rw [h1] at h; cases h
          · rw [h2] at h; cases h
          · rw [h3] at h; cases h
          · exact List.ne_nil_of_mem h
      · rw [if_neg (by simpa using h1), if_neg (by simpa using h2),
            if_pos (by simpa using h3)]
        obtain ⟨s, hs⟩ := List.exists_mem_of_ne_nil _ h3
        have := (hiff s).mp (Or.inr (Or.inr (Or.inl hs)))
        exact iff_of_true h3 ⟨s, this.1, this.2⟩
    · rw [if_neg (by simpa using h1), if_pos (by simpa using h2)]
      obtain ⟨s, hs⟩ := List.exists_mem_of_ne_nil _ h2
      have := (hiff s).mp (Or.inr (Or.inl hs))
      exact iff_of_true h2 ⟨s, this.1, this.2⟩
  · rw [if_pos (by simpa using h1)]
    obtain ⟨s, hs⟩ := List.exists_mem_of_ne_nil _ h1
    have := (hiff s).mp (Or.inl hs)
    exact iff_of_true h1 ⟨s, this.1, this.2⟩

/-- Claim C5, counterexample to the claim as stated: the query
`hub-ca-auth2` is a strict superstring of the catalog name
`hub-ca-auth`, matches no strategy in the implemented direction, and
resolution returns the empty list instead of that service. -/
theorem resolution_superstring_counterexample :
    pyIn authSvc.name "hub-ca-auth2".toList = true
      ∧ authSvc.name ≠ "hub-ca-auth2".toList
      ∧ resolve_service_names "hub-ca-auth2".toList [authSvc] none = [] := by
  refine ⟨by decide, by decide, by decide⟩

theorem resolveLoop_error_of_failing {tokens : List PyStr}
    {svcs : List ServiceConfig} {loc : Option PyStr}
    (h : ∃ t ∈ tokens, resolve_service_names t svcs loc = []) :
    ∃ t', t' ∈ tokens ∧ resolve_service_names t' svcs loc = []
      ∧ resolveLoop tokens svcs loc = .error t' := by
  induction tokens with
  | nil => obtain ⟨t, ht, _⟩ := h; cases ht
  | cons t ts ih =>
    by_cases hm : resolve_service_names t svcs loc = []
    · exact ⟨t, List.mem_cons_self t ts, hm, by rw [resolveLoop]; simp [hm]⟩
    · obtain ⟨u, hu, hur⟩ := h
      rcases List.mem_cons.mp hu with rfl | hu'
      · exact absurd hur hm
      · obtain ⟨t', ht', hr', hloop⟩ := ih ⟨u, hu', hur⟩
        refine ⟨t', List.mem_cons_of_mem _ ht', hr', ?_⟩
        rw [resolveLoop]
        simp [hm, hloop]

/-- Claim C9 (amended): whenever some token of the request resolves to the
empty set, `search_logs_handler` returns a terminal `Service not found`
error synchronously — no cache lookup, no admission slot, no scan — but a
request whose token *list* is empty is not rejected: it proceeds into
`_execute_search`, consults the cache, and on a miss acquires the global
slot while scanning zero services. -/
theorem unresolvable_token_short_circuits (tokens : List PyStr)
    (svcs : List ServiceConfig) (loc : Option PyStr) (cacheHit : Bool)
    (h : ∃ t ∈ tokens, resolve_service_names t svcs loc = []) :
    ∃ t', t' ∈ tokens ∧ resolve_service_names t' svcs loc = []
      ∧ searchLogsHandler tokens svcs loc cacheHit = .terminalError t' := by
  obtain ⟨t', ht', hr', hloop⟩ := resolveLoop_error_of_failing h
  exact ⟨t', ht', hr', by rw [searchLogsHandler, hloop]⟩

theorem unresolvable_token_short_circuits_witness :
    ∃ t', t' ∈ ["nosuchservice".toList]
      ∧ resolve_service_names t' [authSvc] none = []
      ∧ searchLogsHandler ["nosuchservice".toList] [authSvc] none false
          = .terminalError t' :=
  unresolvable_token_short_circuits ["nosuchservice".toList] [authSvc] none false
    ⟨"nosuchservice".toList, by decide, by decide⟩

/-- Claim C9, counterexample to the claim as stated: a request whose list
of service tokens is empty has an empty resolved set, yet the handler does
not return a terminal error — it executes with zero services, consulting
the cache (second field `true`) and, on this cache miss, acquiring the
global admission slot (third field `true`). -/
theorem empty_token_list_counterexample :
    searchLogsHandler [] [authSvc] none false = .executed [] true true
      ∧ ∀ t, searchLogsHandler [] [authSvc] none false ≠ .terminalError t := by
  refine ⟨rfl, fun t h => ?_⟩
  rw [searchLogsHandler] at h
  simp [resolveLoop] at h

theorem dedup_go_seen_congr {s1 s2 : List PyStr}
    (hs : ∀ x, x ∈ s1 ↔ x ∈ s2) : ∀ l, dedupFirst.go s1 l = dedupFirst.go s2 l := by
  intro l
  induction l generalizing s1 s2 with
  | nil => rfl
  | cons y ys ih =>
    rw [dedupFirst.go, dedupFirst.go]
    by_cases hy : y ∈ s1
    · rw [if_pos hy, if_pos ((hs y).mp hy), ih hs]
    · rw [if_neg hy, if_neg (fun hc => hy ((hs y).mpr hc))]
      refine congrArg _ (ih fun x => ?_)
      simp only [List.mem_cons]
      exact or_congr Iff.rfl (hs x)

theorem dedup_go_mem {x : PyStr} :
    ∀ {l seen}, x ∈ dedupFirst.go seen l ↔ x ∈ l ∧ x ∉ seen := by
  intro l
  induction l with
  | nil => simp [dedupFirst.go]
  | cons y ys ih =>
    intro seen
    rw [dedupFirst.go]
    by_cases hy : y ∈ seen
    · rw [if_pos hy, ih]
      constructor
      · rintro ⟨hx, hns⟩
        exact ⟨List.mem_cons_of_mem _ hx, hns⟩
      · rintro ⟨hx, hns⟩
        rcases List.mem_cons.mp hx with rfl | hx'
        · exact absurd hy hns
        · exact ⟨hx', hns⟩
    · rw [if_neg hy]
      simp only [List.mem_cons, ih, List.mem_cons]
      constructor
      · rintro (rfl | ⟨hx, hns⟩)
        · exact ⟨Or.inl rfl, hy⟩
        · exact ⟨Or.inr hx, fun hc => hns (Or.inr hc)⟩
      · rintro ⟨rfl | hx, hns⟩
        · exact Or.inl rfl
        · by_cases hxy : x = y
          · exact Or.inl hxy
          · exact Or.inr ⟨hx, fun hc => by
              rcases hc with h' | h'
              · exact hxy h'
              · exact hns h'⟩

theorem dedup_go_nodup : ∀ (l seen : List PyStr), (dedupFirst.go seen l).Nodup := by
  intro l
  induction l with
  | nil => intro seen; simp [dedupFirst.go]
  | cons y ys ih =>
    intro seen
    rw [dedupFirst.go]
    by_cases hy : y ∈ seen
    · rw [if_pos hy]; exact ih seen
    · rw [if_neg hy]
      refine List.nodup_cons.mpr ⟨fun hc => ?_, ih (y :: seen)⟩
      exact (dedup_go_mem.mp hc).2 (List.mem_cons_self y seen)

theorem dedup_go_sublist : ∀ (l seen : List PyStr), List.Sublist (dedupFirst.go seen l) l := by
  intro l
  induction l with
  | nil => intro seen; simp [dedupFirst.go]
  | cons y ys ih =>
    intro seen
    rw [dedupFirst.go]
    by_cases hy : y ∈ seen
    · rw [if_pos hy]; exact (ih seen).trans (List.sublist_cons_self y ys)
    · rw [if_neg hy]; exact List.Sublist.cons₂ y (ih (y :: seen))

theorem dedup_go_insert (a : PyStr) :
    ∀ (l seen : List PyStr),
      dedupFirst.go (a :: seen) l
        = dedupFirst.go seen (l.filter (fun y => decide (y ≠ a))) := by
  intro l
  induction l with
  | nil => intro seen; rfl
  | cons y ys ih =>
    intro seen
    by_cases hya : y = a
    · subst hya
      rw [dedupFirst.go, if_pos (List.mem_cons_self y seen)]
      rw [List.filter_cons, if_neg (by simp)]
      exact ih seen
    · rw [List.filter_cons, if_pos (by simpa using hya)]
      rw [dedupFirst.go, dedupFirst.go]
      by_cases hy : y ∈ seen
      · rw [if_pos (List.mem_cons_of_mem _ hy), if_pos hy]
        exact ih seen
      · rw [if_neg (by simp [hya, hy]), if_neg hy]
        refine congrArg _ ?_
        rw [@dedup_go_seen_congr (y :: a :: seen) (a :: y :: seen)
              (by intro x; simp; tauto) ys,
            ih (y :: seen)]

/-- Claim C10: the searched service list is duplicate-free — `dedupFirst`
(the `list(dict.fromkeys(...))` step) keeps exactly the first occurrence
of each name in order (it is a nodup sublist with the same members,
satisfying the first-occurrence recursion), and the handler hands exactly
this deduplicated list to `_execute_search`, whose metadata carries it
verbatim, so no service is scanned twice in one call. -/
theorem services_deduplicated :
    (∀ l : List PyStr, (dedupFirst l).Nodup
      ∧ (∀ x, x ∈ dedupFirst l ↔ x ∈ l)
      ∧ List.Sublist (dedupFirst l) l)
    ∧ (∀ (x : PyStr) (l : List PyStr),
        dedupFirst (x :: l) = x :: dedupFirst (l.filter (fun y => decide (y ≠ x))))
    ∧ (∀ tokens svcs loc cacheHit names,
        resolveLoop tokens svcs loc = .ok names →
          searchLogsHandler tokens svcs loc cacheHit
            = .executed (dedupFirst names) true (!cacheHit))
    ∧ (∀ services perService timedOut results saveOk previewLimit,
        (executeSearch services perService timedOut results saveOk previewLimit).1.services
          = services) := by
  refine ⟨fun l => ⟨dedup_go_nodup l [], fun x => ?_, dedup_go_sublist l []⟩,
    fun x l => ?_, fun tokens svcs loc cacheHit names h => ?_, fun s p t r sv pl => ?_⟩
  · rw [dedupFirst, dedup_go_mem]
    simp
  · rw [dedupFirst, dedupFirst, dedupFirst.go, if_neg (List.not_mem_nil x),
        dedup_go_insert]
  · rw [searchLogsHandler, h]
  · simp only [executeSearch, assembleResult]
    repeat' split
    all_goals rfl

theorem services_deduplicated_witness :
    searchLogsHandler ["auth".toList] [authSvc] none false
      = .executed (dedupFirst ["hub-ca-auth".toList]) true true :=
  services_deduplicated.2.2.1 ["auth".toList] [authSvc] none false
    ["hub-ca-auth".toList] (by rfl)

theorem foldl_addMatch_total (ms : List Match) :
    ∀ p : ProgressTracker,
      (ms.foldl (fun acc _ => addMatch acc) p).total_matches
        = p.total_matches + ms.length := by
  induction ms with
  | nil => intro p; simp
  | cons m rest ih =>
    intro p
    rw [List.foldl_cons, ih]
    simp [addMatch]
    omega

theorem foldl_addMatch_files (ms : List Match) :
    ∀ p : ProgressTracker,
      (ms.foldl (fun acc _ => addMatch acc) p).total_files = p.total_files := by
  induction ms with
  | nil => intro p; rfl
  | cons m rest ih =>
    intro p
    rw [List.foldl_cons, ih]
    rfl

theorem scanProgress_total_matches (p : ProgressTracker) (fs : List PyStr)
    (ms : List Match) :
    (scanProgress p fs ms).total_matches = p.total_matches + ms.length := by
  rw [scanProgress, foldl_addMatch_total]

theorem scanProgress_total_files (p : ProgressTracker) (fs : List PyStr)
    (ms : List Match) :
    (scanProgress p fs ms).total_files = p.total_files := by
  rw [scanProgress, foldl_addMatch_files]

theorem runScans_total_matches (perService : List (List PyStr × List Match)) :
    (runScans perService).total_matches = (perService.map (·.2.length)).sum := by
  rw [runScans]
  have : ∀ (l : List (List PyStr × List Match)) (p : ProgressTracker),
      (l.foldl (fun p sv => scanProgress p sv.1 sv.2) p).total_matches
        = p.total_matches + (l.map (·.2.length)).sum := by
    intro l
    induction l with
    | nil => intro p; simp
    | cons sv rest ih =>
      intro p
      rw [List.foldl_cons, ih, scanProgress_total_matches]
      simp
      omega
  rw [this]
  simp [progressInit]

theorem runScans_total_files (perService : List (List PyStr × List Match)) :
    (runScans perService).total_files = 0 := by
  rw [runScans]
  have : ∀ (l : List (List PyStr × List Match)) (p : ProgressTracker),
      (l.foldl (fun p sv => scanProgress p sv.1 sv.2) p).total_files
        = p.total_files := by
    intro l
    induction l with
    | nil => intro p; rfl
    | cons sv rest ih =>
      intro p
      rw [List.foldl_cons, ih, scanProgress_total_files]
  rw [this]
  rfl

/-- Claim C1 (amended): when the overall deadline fires, the metadata is
flagged `partial=true` with the timeout error, but the matches streamed
into the aggregator before cancellation are *discarded*, not retained:
`asyncio.wait_for` raises before the `results` assignment, so
`all_matches` keeps its initial `[]` and the reported `total_matches` is
`0` (and the preview is empty) no matter how many matches the progress
tracker counted. -/
theorem timeout_discards_streamed_matches (services : List PyStr)
    (perService : List (List PyStr × List Match))
    (results : List (Except PyStr (List Match))) (saveOk : Bool)
    (previewLimit : Nat) :
    (executeSearch services perService true results saveOk previewLimit).1.partialResult
        = true
      ∧ (executeSearch services perService true results saveOk previewLimit).1.error
        = some timeoutMessage
      ∧ (executeSearch services perService true results saveOk previewLimit).1.total_matches
        = 0
      ∧ (executeSearch services perService true results saveOk previewLimit).2 = []
      ∧ (runScans perService).total_matches = (perService.map (·.2.length)).sum := by
  refine ⟨?_, ?_, ?_, ?_, runScans_total_matches perService⟩ <;>
    · simp only [executeSearch, gatherOutcome, if_pos rfl, assembleResult]
      split <;> simp_all

/-- A concrete match used by counterexample evaluations. -/
def mkMatch (i : Nat) : Match :=
  { service := "hub-ca-auth".toList, file := "/var/log/app.log".toList,
    line := i, content := "ERROR".toList }

/-- Claim C1, counterexample to the claim as stated: a deadline firing
after 12 matches were streamed (the tracker counted 12) yields
`total_matches = 0`, not 12 — the pre-cancellation matches are lost. -/
theorem timeout_claim_counterexample :
    (runScans [(["/var/log/app.log".toList], (List.range 12).map mkMatch)]).total_matches
        = 12
      ∧ (executeSearch ["hub-ca-auth".toList]
          [(["/var/log/app.log".toList], (List.range 12).map mkMatch)]
          true [] true 50).1.total_matches = 0
      ∧ (executeSearch ["hub-ca-auth".toList]
          [(["/var/log/app.log".toList], (List.range 12).map mkMatch)]
          true [] true 50).1.partialResult = true
      ∧ (0 : Nat) ≠ 12 := by
  refine ⟨by rfl, by rfl, by rfl, by decide⟩

/-- Claim C2: the code reports `files_searched` from
`progress.total_files`, which is initialized to `0` by
`ProgressTracker(0, services)` and never updated anywhere in
`_execute_search` or the scanners (they assign the separate
`files_searched` field instead) — so the metadata field is `0` for every
completed non-cached search, whatever was discovered and examined. -/
theorem files_searched_always_zero (services : List PyStr)
    (perService : List (List PyStr × List Match)) (timedOut : Bool)
    (results : List (Except PyStr (List Match))) (saveOk : Bool)
    (previewLimit : Nat) :
    (executeSearch services perService timedOut results saveOk previewLimit).1.files_searched
      = 0 := by
  have h := runScans_total_files perService
  simp only [executeSearch, assembleResult]
  repeat' split
  all_goals simp_all

/-- Claim C2, evaluation at the failing input: three services, one
discovered and examined file with one match each — the claim (and spec
scenario) require `files_searched = 3`, the code reports `0`. -/
theorem files_searched_failing_input :
    (executeSearch
        ["hub-ca-auth".toList, "hub-us-auth".toList, "hub-na-auth".toList]
        [(["/l/ca.log".toList], [mkMatch 1]),
         (["/l/us.log".toList], [mkMatch 2]),
         (["/l/na.log".toList], [mkMatch 3])]
        false
        [.ok [mkMatch 1], .ok [mkMatch 2], .ok [mkMatch 3]]
        true 50).1.files_searched = 0 := by
  rfl

/-- Claim C4 (amended): when the spill write succeeds, `overflow` is set
iff the total exceeds the preview limit, and the preview is the first
`preview_limit` matches exactly when it is set (the whole set otherwise);
but when the spill write *fails*, `overflow` is never set even though the
preview is still truncated to the limit. -/
theorem overflow_preview_assembly (progress : ProgressTracker)
    (services : List PyStr) (allMatches : List Match)
    (errorOccurred : Option PyStr) (previewLimit : Nat) :
    ((assembleResult progress services allMatches errorOccurred true previewLimit).1.overflow
          = true
        ↔ allMatches.length > previewLimit)
      ∧ ((assembleResult progress services allMatches errorOccurred true previewLimit).1.overflow
            = true →
          (assembleResult progress services allMatches errorOccurred true previewLimit).2
            = allMatches.take previewLimit)
      ∧ ((assembleResult progress services allMatches errorOccurred true previewLimit).1.overflow
            = false →
          (assembleResult progress services allMatches errorOccurred true previewLimit).2
            = allMatches)
      ∧ (assembleResult progress services allMatches errorOccurred false previewLimit).1.overflow
          = false
      ∧ (assembleResult progress services allMatches errorOccurred false previewLimit).2
          = (if allMatches.length > previewLimit then allMatches.take previewLimit
             else allMatches) := by
  by_cases h : allMatches.length > previewLimit
  · simp [assembleResult, h]
  · simp [assembleResult, h]

theorem overflow_preview_assembly_witness :
    ((assembleResult progressInit ["hub-ca-auth".toList]
        ((List.range 3).map mkMatch) none true 2).1.overflow = true
      ∧ (assembleResult progressInit ["hub-ca-auth".toList]
          ((List.range 3).map mkMatch) none true 2).2
        = ((List.range 3).map mkMatch).take 2) :=
  ⟨(overflow_preview_assembly progressInit ["hub-ca-auth".toList]
      ((List.range 3).map mkMatch) none 2).1.mpr (by decide),
   (overflow_preview_assembly progressInit ["hub-ca-auth".toList]
      ((List.range 3).map mkMatch) none 2).2.1
      ((overflow_preview_assembly progressInit ["hub-ca-auth".toList]
        ((List.range 3).map mkMatch) none 2).1.mpr (by decide))⟩

/-- Claim C4, counterexample to the claim as stated: a completed
non-cached search with 51 matches and `preview_limit = 50` whose spill
write failed has `overflow = false` despite `total_matches = 51 > 50`,
and its preview is truncated to 50 even though the flag is unset. -/
theorem overflow_save_failure_counterexample :
    (assembleResult progressInit ["hub-ca-auth".toList]
        ((List.range 51).map mkMatch) none false 50).1.overflow = false
      ∧ (assembleResult progressInit ["hub-ca-auth".toList]
          ((List.range 51).map mkMatch) none false 50).1.total_matches = 51
      ∧ (assembleResult progressInit ["hub-ca-auth".toList]
          ((List.range 51).map mkMatch) none false 50).2.length = 50 := by
  refine ⟨by rfl, by rfl, by rfl⟩

theorem insideTree_startsWith {p base : PyStr} (h : insideTree p base) :
    pyStartsWith p base = true := by
  rcases h with rfl | hpre
  · simp [pyStartsWith, List.isPrefixOf_iff_prefix]
  · rw [pyStartsWith, List.isPrefixOf_iff_prefix]
    exact (List.prefix_append base ['/']).trans hpre

/-- Claim C6 (amended): the spill read-back accepts exactly the resolved
paths whose *string* starts with the output directory string, then carry
the `logai-` filename prefix and exist; a path failing the directory
check is rejected as `InvalidPath` before any read, and every path truly
inside the tree passes the directory check — but the bare `startswith`
test also admits sibling paths that merely share the textual prefix, so
acceptance does not imply living inside the tree. -/
theorem spill_path_validation (p base : PyStr) (fileExists : Bool) :
    (readSearchFileCheck p base fileExists = .readFile ↔
        pyStartsWith p base = true
          ∧ pyStartsWith (pathName p) "logai-".toList = true
          ∧ fileExists = true)
      ∧ (pyStartsWith p base = false →
          readSearchFileCheck p base fileExists = .invalidPath)
      ∧ (insideTree p base → pyStartsWith p base = true) := by
  refine ⟨?_, ?_, fun h => insideTree_startsWith h⟩
  · rw [readSearchFileCheck]
    cases h1 : pyStartsWith p base <;>
      cases h2 : pyStartsWith (pathName p) "logai-".toList <;>
        cases h3 : fileExists <;> simp [h1, h2, h3]
  · intro h
    rw [readSearchFileCheck, if_pos (by simp [h])]

theorem spill_path_validation_witness :
    readSearchFileCheck "/tmp/log-ai-results/logai-search-x.json".toList
        "/tmp/log-ai-results".toList true = .readFile :=
  (spill_path_validation "/tmp/log-ai-results/logai-search-x.json".toList
      "/tmp/log-ai-results".toList true).1.mpr ⟨by decide, by decide, rfl⟩

/-- Claim C6, counterexample to the claim as stated: a file in the
*sibling* directory `/tmp/log-ai-results-evil`, whose real location is
outside the output tree but whose string shares the output directory as a
prefix, passes validation and is read. -/
theorem spill_path_prefix_counterexample :
    readSearchFileCheck "/tmp/log-ai-results-evil/logai-x.json".toList
        "/tmp/log-ai-results".toList true = .readFile
      ∧ ¬ insideTree "/tmp/log-ai-results-evil/logai-x.json".toList
          "/tmp/log-ai-results".toList := by
  refine ⟨by decide, ?_⟩
  rw [insideTree]
  push_neg
  exact ⟨by decide, by decide⟩

theorem timesToCheck_closed (s e : Nat) (hse : s ≤ e) :
    timesToCheck s e
      = (List.range ((e - s) / 3600 + 1)).map (fun k => s + 3600 * k) := by
  have main : ∀ (d s e : Nat), e - s = d → s ≤ e →
      timesToCheck s e
        = (List.range ((e - s) / 3600 + 1)).map (fun k => s + 3600 * k) := by
    intro d
    induction d using Nat.strong_induction_on with
    | _ d ih =>
      intro s e hd hse
      rw [timesToCheck, if_pos hse]
      by_cases h2 : s + 3600 ≤ e
      · have hrec := ih (e - (s + 3600)) (by omega) (s + 3600) e rfl h2
        rw [hrec]
        have hdiv : (e - s) / 3600 = ((e - (s + 3600)) / 3600 + 1) := by omega
        conv_rhs => rw [hdiv, List.range_succ_eq_map, List.map_cons,
          List.map_map]
        congr 1
        refine List.map_congr_left fun k _ => ?_
        simp only [Function.comp_apply, Nat.succ_eq_add_one]
        omega
      · rw [timesToCheck, if_neg h2]
        have h0 : (e - s) / 3600 = 0 := by omega
        rw [h0]
        simp [List.range_succ]
  exact main (e - s) s e rfl hse

/-- Claim C3 (amended): for a template with date placeholders and a window
with `start ≤ end`, discovery expands the template once per iterate of
`start, start + 1h, start + 2h, ...` while the iterate stays `≤ end` —
the substituted hours are exactly the contiguous block from
`floor(start)` of length `(end - start) / 3600 + 1`, which crosses UTC
day boundaries correctly, but the hour containing `end` is covered iff
the start's sub-hour offset does not exceed the end's
(`start % 3600 ≤ end % 3600`); flooring of the start never happens, so a
window like `14:30 → 16:10` stops at hour 15. -/
theorem find_log_files_hour_iteration (tmpl : PyStr) (s e : Nat)
    (hph : pyIn "{YYYY}".toList tmpl = true) (hse : s ≤ e) :
    findLogFilePatterns tmpl s e
        = ((List.range ((e - s) / 3600 + 1)).map
            (fun k => s + 3600 * k)).map (expandPattern tmpl)
      ∧ (timesToCheck s e).map (fun t => t / 3600)
        = (List.range ((e - s) / 3600 + 1)).map (fun k => s / 3600 + k)
      ∧ ((e / 3600) ∈ (timesToCheck s e).map (fun t => t / 3600) ↔
          s % 3600 ≤ e % 3600) := by
  have hclosed := timesToCheck_closed s e hse
  have hmap : (timesToCheck s e).map (fun t => t / 3600)
      = (List.range ((e - s) / 3600 + 1)).map (fun k => s / 3600 + k) := by
    rw [hclosed, List.map_map]
    refine List.map_congr_left fun k _ => ?_
    simp only [Function.comp_apply]
    omega
  refine ⟨?_, hmap, ?_⟩
  · rw [findLogFilePatterns, if_neg (fun hc => hc.1 hph), hclosed]
  · rw [hmap]
    simp only [List.mem_map, List.mem_range]
    constructor
    · rintro ⟨k, hk, hke⟩
      omega
    · intro hr
      exact ⟨e / 3600 - s / 3600, by omega, by omega⟩

theorem find_log_files_hour_iteration_witness :
    findLogFilePatterns authSvc.path_pattern 1767707100 1767715800
        = ((List.range ((1767715800 - 1767707100) / 3600 + 1)).map
            (fun k => 1767707100 + 3600 * k)).map (expandPattern authSvc.path_pattern)
      ∧ (timesToCheck 1767707100 1767715800).map (fun t => t / 3600)
        = (List.range ((1767715800 - 1767707100) / 3600 + 1)).map
            (fun k => 1767707100 / 3600 + k)
      ∧ ((1767715800 / 3600) ∈
            (timesToCheck 1767707100 1767715800).map (fun t => t / 3600) ↔
          1767707100 % 3600 ≤ 1767715800 % 3600) :=
  find_log_files_hour_iteration authSvc.path_pattern 1767707100 1767715800
    (by decide) (by decide)

/-- Claim C3, counterexample to the claim as stated: the window
2026-01-06T14:30:00Z to 2026-01-06T16:10:00Z (epoch 1767709800 to
1767715800). The instant 16:00Z (epoch 1767715200) lies inside the
window, so hour 16 overlaps it and contains the end, yet discovery
expands only the hour-14 and hour-15 patterns: iteration visits 14:30 and
15:30 and stops because 16:30 exceeds the end. -/
theorem hour_iteration_misses_end_hour :
    findLogFilePatterns authSvc.path_pattern 1767709800 1767715800
        = ["/var/log/2026/01/06/14/app.log".toList,
           "/var/log/2026/01/06/15/app.log".toList]
      ∧ ("/var/log/2026/01/06/16/app.log".toList ∉
          findLogFilePatterns authSvc.path_pattern 1767709800 1767715800)
      ∧ 1767709800 ≤ 1767715200 ∧ 1767715200 ≤ 1767715800
      ∧ hourOf 1767715200 = 16 ∧ hourOf 1767715800 = 16
      ∧ expandPattern authSvc.path_pattern 1767715200
        = "/var/log/2026/01/06/16/app.log".toList := by
  have ht : timesToCheck 1767709800 1767715800 = [1767709800, 1767713400] := by
    simp [timesToCheck]
  have h : findLogFilePatterns authSvc.path_pattern 1767709800 1767715800
      = ["/var/log/2026/01/06/14/app.log".toList,
         "/var/log/2026/01/06/15/app.log".toList] := by
    rw [findLogFilePatterns, if_neg (by decide), ht]
    decide
  refine ⟨h, ?_, by decide, by decide, by decide, by decide, by decide⟩
  rw [h]
  decide

/-- The cache bookkeeping invariant: the running byte counter equals the
sum of stored entry sizes, and keys are unique (an `OrderedDict`
guarantee). -/
def cacheWF (c : SearchCache) : Prop :=
  c.total_size_bytes = cacheSize c.entries ∧ (c.entries.map (·.key)).Nodup

theorem evictGo_size (maxB maxE needed : Nat) :
    ∀ (es : List CacheEntry) (t : Nat), t = cacheSize es →
      (evictUntilFitsGo maxB maxE needed es t).2
        = cacheSize (evictUntilFitsGo maxB maxE needed es t).1 := by
  intro es
  induction es with
  | nil => intro t ht; simpa [evictUntilFitsGo, cacheSize]
  | cons e rest ih =>
    intro t ht
    rw [evictUntilFitsGo]
    split
    · refine ih (t - e.size_bytes) ?_
      rw [ht]
      simp [cacheSize]
    · exact ht

theorem evictGo_sublist (maxB maxE needed : Nat) :
    ∀ (es : List CacheEntry) (t : Nat),
      List.Sublist (evictUntilFitsGo maxB maxE needed es t).1 es := by
  intro es
  induction es with
  | nil => intro t; simp [evictUntilFitsGo]
  | cons e rest ih =>
    intro t
    rw [evictUntilFitsGo]
    split
    · exact (ih (t - e.size_bytes)).trans (List.sublist_cons_self e rest)
    · exact List.Sublist.refl _

theorem evictGo_post (maxB maxE needed : Nat) :
    ∀ (es : List CacheEntry) (t : Nat),
      (evictUntilFitsGo maxB maxE needed es t).1 = []
        ∨ ((evictUntilFitsGo maxB maxE needed es t).2 + needed ≤ maxB
            ∧ (evictUntilFitsGo maxB maxE needed es t).1.length < maxE) := by
  intro es
  induction es with
  | nil => intro t; exact Or.inl rfl
  | cons e rest ih =>
    intro t
    rw [evictUntilFitsGo]
    split
    · exact ih (t - e.size_bytes)
    · rename_i hcond
      push_neg at hcond
      exact Or.inr ⟨hcond.1, hcond.2⟩

theorem mem_size_le_cacheSize {en : CacheEntry} :
    ∀ {es : List CacheEntry}, en ∈ es → en.size_bytes ≤ cacheSize es := by
  intro es
  induction es with
  | nil => intro h; cases h
  | cons e rest ih =>
    intro h
    rcases List.mem_cons.mp h with rfl | h'
    · simp [cacheSize]
    · have := ih h'
      simp only [cacheSize, List.map_cons, List.sum_cons] at this ⊢
      omega

theorem replace_keys (key : PyStr) (sz : Nat) (es : List CacheEntry) :
    (es.map (fun e => if e.key = key then ⟨key, sz⟩ else e)).map (·.key)
      = es.map (·.key) := by
  rw [List.map_map]
  refine List.map_congr_left fun e _ => ?_
  by_cases he : e.key = key
  · simp [he]
  · simp [he]

theorem replace_size_of_nodup (key : PyStr) (sz : Nat) :
    ∀ (es : List CacheEntry), ((es.map (·.key)).Nodup) →
      ∀ e0, es.find? (fun e => e.key = key) = some e0 →
        cacheSize (es.map (fun e => if e.key = key then ⟨key, sz⟩ else e))
          = cacheSize es - e0.size_bytes + sz := by
  intro es
  induction es with
  | nil => intro _ e0 h; simp [List.find?] at h
  | cons e rest ih =>
    intro hnd e0 hfind
    rw [List.map_cons, List.nodup_cons] at hnd
    rw [List.find?_cons] at hfind
    by_cases he : e.key = key
    · simp only [decide_eq_true he] at hfind
      injection hfind with he0
      subst he0
      have hrest : rest.map (fun x => if x.key = key then (⟨key, sz⟩ : CacheEntry) else x)
          = rest := by
        have h0 : ∀ x ∈ rest,
            (if x.key = key then (⟨key, sz⟩ : CacheEntry) else x) = x := by
          intro x hx
          refine if_neg fun hxk => hnd.1 ?_
          rw [he, ← hxk]
          exact List.mem_map_of_mem _ hx
        calc rest.map (fun x => if x.key = key then (⟨key, sz⟩ : CacheEntry) else x)
            = rest.map id := List.map_congr_left h0
          _ = rest := List.map_id rest
      rw [List.map_cons, if_pos he, hrest]
      simp only [cacheSize, List.map_cons, List.sum_cons]
      omega
    · simp only [decide_eq_false he] at hfind
      have he0mem : e0 ∈ rest := List.mem_of_find?_eq_some hfind
      have hle : e0.size_bytes ≤ cacheSize rest := mem_size_le_cacheSize he0mem
      rw [List.map_cons, if_neg he]
      have := ih hnd.2 e0 hfind
      simp only [cacheSize, List.map_cons, List.sum_cons] at this hle ⊢
      omega

/-- The full cap invariant the amended claim asserts for the local cache. -/
def cacheInv (maxB maxE : Nat) (c : SearchCache) : Prop :=
  cacheWF c ∧ c.total_size_bytes ≤ maxB ∧ c.entries.length ≤ maxE
    ∧ ∀ en ∈ c.entries, 10 * en.size_bytes ≤ maxB

theorem cachePut_inv (maxB maxE : Nat) (hE : 1 ≤ maxE) (c : SearchCache)
    (k : PyStr) (sz : Nat) (h : cacheInv maxB maxE c) :
    cacheInv maxB maxE (cachePut maxB maxE c k sz) := by
  rw [cachePut]
  split
  · exact h
  rename_i hsz
  push_neg at hsz
  have hWFsize := evictGo_size maxB maxE sz c.entries c.total_size_bytes h.1.1
  have hsub := evictGo_sublist maxB maxE sz c.entries c.total_size_bytes
  have hnd : ((evictUntilFitsGo maxB maxE sz c.entries c.total_size_bytes).1.map
      (·.key)).Nodup := h.1.2.sublist (hsub.map _)
  have hpost := evictGo_post maxB maxE sz c.entries c.total_size_bytes
  have hbig : ∀ en ∈ (evictUntilFitsGo maxB maxE sz c.entries c.total_size_bytes).1,
      10 * en.size_bytes ≤ maxB := fun en hen => h.2.2.2 en (hsub.subset hen)
  set ev := evictUntilFitsGo maxB maxE sz c.entries c.total_size_bytes with hev
  split
  · rename_i hany
    have hfind : (ev.1.find? (fun e => e.key = k)).isSome := by
      rw [List.find?_isSome]
      simpa using hany
    obtain ⟨e0, hfind0⟩ := Option.isSome_iff_exists.mp hfind
    have he0mem : e0 ∈ ev.1 := List.mem_of_find?_eq_some hfind0
    have hnonempty : ev.1 ≠ [] := List.ne_nil_of_mem he0mem
    have hright : ev.2 + sz ≤ maxB ∧ ev.1.length < maxE := by
      rcases hpost with hl | hr
      · exact absurd hl hnonempty
      · exact hr
    have hszrepl := replace_size_of_nodup k sz ev.1 hnd e0 hfind0
    have hle0 : e0.size_bytes ≤ cacheSize ev.1 := mem_size_le_cacheSize he0mem
    have hgetD : (((ev.1.find? (fun e => e.key = k)).map (·.size_bytes)).getD 0)
        = e0.size_bytes := by
      rw [hfind0]
      rfl
    refine ⟨⟨?_, ?_⟩, ?_, ?_, ?_⟩
    · rw [hgetD, hszrepl, hWFsize]
    · rw [replace_keys]
      exact hnd
    · rw [hgetD]
      show ev.2 - e0.size_bytes + sz ≤ maxB
      omega
    · simpa using hright.2.le
    · intro en hen
      rcases List.mem_map.mp hen with ⟨x, hx, hxe⟩
      by_cases hxk : x.key = k
      · rw [if_pos hxk] at hxe
        subst hxe
        exact hsz
      · rw [if_neg hxk] at hxe
        subst hxe
        exact hbig x hx
  · rename_i hany
    have hnotin : ∀ x ∈ ev.1, ¬ x.key = k := by
      intro x hx
      have := List.any_eq_false.mp (Bool.not_eq_true _ ▸ hany)
      simpa using this x hx
    have happkeys : ((ev.1 ++ [(⟨k, sz⟩ : CacheEntry)]).map (·.key)).Nodup := by
      rw [List.map_append]
      refine List.Nodup.append hnd (List.nodup_singleton _) ?_
      intro a ha hb
      simp only [List.map_cons, List.map_nil, List.mem_singleton] at hb
      rcases List.mem_map.mp ha with ⟨x, hx, hxa⟩
      exact hnotin x hx (by rw [hxa, hb])
    have happsize : cacheSize (ev.1 ++ [(⟨k, sz⟩ : CacheEntry)])
        = cacheSize ev.1 + sz := by
      simp [cacheSize]
    refine ⟨⟨?_, happkeys⟩, ?_, ?_, ?_⟩
    · rw [happsize, hWFsize]
    · show ev.2 + sz ≤ maxB
      rcases hpost with hl | hr
      · have hz : ev.2 = 0 := by
          rw [hWFsize, hl]
          rfl
        omega
      · omega
    · show (ev.1 ++ [(⟨k, sz⟩ : CacheEntry)]).length ≤ maxE
      rcases hpost with hl | hr
      · rw [hl]
        simpa using hE
      · simp only [List.length_append, List.length_singleton]
        omega
    · intro en hen
      rcases List.mem_append.mp hen with hl | hr
      · exact hbig en hl
      · rcases List.mem_singleton.mp hr with rfl
        exact hsz

theorem runPuts_inv (maxB maxE : Nat) (hE : 1 ≤ maxE) (ops : List (PyStr × Nat)) :
    cacheInv maxB maxE (runPuts maxB maxE ops) := by
  rw [runPuts]
  have hstart : cacheInv maxB maxE emptyCache := by
    refine ⟨⟨rfl, List.nodup_nil⟩, ?_, ?_, ?_⟩ <;> simp [emptyCache]
  generalize emptyCache = c at hstart ⊢
  induction ops generalizing c with
  | nil => exact hstart
  | cons op rest ih =>
    rw [List.foldl_cons]
    exact ih _ (cachePut_inv maxB maxE hE c op.1 op.2 hstart)

/-- Claim C7 (amended): the *local* `SearchCache.put` enforces the caps —
after any sequence of puts against a fresh cache (entry cap at least 1),
total stored bytes stay within the byte cap, the entry count within the
entry cap, every stored entry passed the one-tenth size gate, and an
entry over one tenth of the byte cap leaves the cache untouched. The
*distributed* `RedisCache.put`, however, enforces nothing: it stores
every entry unconditionally via a single `SETEX` (TTL only), with no
byte/entry caps, no LRU bookkeeping and no oversize skip. -/
theorem local_cache_caps_enforced (maxB maxE : Nat) (ops : List (PyStr × Nat))
    (hE : 1 ≤ maxE) :
    (runPuts maxB maxE ops).total_size_bytes ≤ maxB
      ∧ (runPuts maxB maxE ops).entries.length ≤ maxE
      ∧ (∀ en ∈ (runPuts maxB maxE ops).entries, 10 * en.size_bytes ≤ maxB)
      ∧ (∀ c k sz, 10 * sz > maxB → cachePut maxB maxE c k sz = c)
      ∧ (∀ store k sz, store.any (fun kv => kv.1 = k) = false →
          redisPut store k sz = store ++ [(k, sz)]) := by
  obtain ⟨_, h1, h2, h3⟩ := runPuts_inv maxB maxE hE ops
  refine ⟨h1, h2, h3, fun c k sz hsz => ?_, fun store k sz hany => ?_⟩
  · rw [cachePut, if_pos hsz]
  · rw [redisPut, redisSetex, if_neg (by simp [hany])]

theorem local_cache_caps_enforced_witness :
    (runPuts 1000 2 [("a".toList, 60), ("b".toList, 70), ("c".toList, 80),
        ("d".toList, 2000)]).total_size_bytes ≤ 1000
      ∧ (runPuts 1000 2 [("a".toList, 60), ("b".toList, 70), ("c".toList, 80),
          ("d".toList, 2000)]).entries.length ≤ 2
      ∧ (∀ en ∈ (runPuts 1000 2 [("a".toList, 60), ("b".toList, 70),
          ("c".toList, 80), ("d".toList, 2000)]).entries,
          10 * en.size_bytes ≤ 1000)
      ∧ (∀ c k sz, 10 * sz > 1000 → cachePut 1000 2 c k sz = c)
      ∧ (∀ store k sz, store.any (fun kv => kv.1 = k) = false →
          redisPut store k sz = store ++ [(k, sz)]) :=
  local_cache_caps_enforced 1000 2
    [("a".toList, 60), ("b".toList, 70), ("c".toList, 80), ("d".toList, 2000)]
    (by norm_num)

/-- Claim C7, counterexample to the claim as stated: with a 100 MB byte
cap, a 50 MB entry exceeds one tenth of the cap; the local cache skips
it, but `RedisCache.put` stores it anyway — the distributed
implementation enforces no caps and no oversize skip. -/
theorem redis_cache_no_caps_counterexample :
    redisPut [] "k".toList 52428800 = [("k".toList, 52428800)]
      ∧ 10 * 52428800 > 104857600
      ∧ cachePut 104857600 1000 emptyCache "k".toList 52428800 = emptyCache := by
  refine ⟨rfl, by norm_num, by rfl⟩

theorem strLe_total : ∀ a b : PyStr, strLe a b = true ∨ strLe b a = true := by
  intro a
  induction a with
  | nil => intro b; exact Or.inl rfl
  | cons c as ih =>
    intro b
    cases b with
    | nil => exact Or.inr rfl
    | cons d bs =>
      rw [strLe, strLe]
      rcases lt_trichotomy c d with h | h | h
      · left; rw [if_pos h]
      · subst h
        simp only [lt_irrefl, if_false]
        exact ih bs
      · right; rw [if_pos h]

theorem strLe_trans : ∀ a b c : PyStr,
    strLe a b = true → strLe b c = true → strLe a c = true := by
  intro a
  induction a with
  | nil => intro b c _ _; rfl
  | cons x as ih =>
    intro b c hab hbc
    cases b with
    | nil => rw [strLe] at hab; cases hab
    | cons y bs =>
      cases c with
      | nil => rw [strLe] at hbc; cases hbc
      | cons z cs =>
        rw [strLe] at hab hbc ⊢
        by_cases hxy : x < y
        · by_cases hyz : y < z
          · rw [if_pos (lt_trans hxy hyz)]
          · by_cases hzy : z < y
            · rw [if_neg hyz, if_pos hzy] at hbc
              cases hbc
            · have : y = z := le_antisymm (not_lt.mp hzy) (not_lt.mp hyz)
              subst this
              rw [if_pos hxy]
        · by_cases hyx : y < x
          · rw [if_neg hxy, if_pos hyx] at hab
            cases hab
          · have hxy' : x = y := le_antisymm (not_lt.mp hyx) (not_lt.mp hxy)
            subst hxy'
            rw [if_neg hxy, if_neg hyx] at hab
            by_cases hyz : x < z
            · rw [if_pos hyz]
            · by_cases hzy : z < x
              · rw [if_neg hyz, if_pos hzy] at hbc
                cases hbc
              · have : x = z := le_antisymm (not_lt.mp hzy) (not_lt.mp hyz)
                subst this
                rw [if_neg hyz, if_neg hzy] at hbc ⊢
                exact ih bs cs hab hbc

theorem strLe_antisymm : ∀ a b : PyStr,
    strLe a b = true → strLe b a = true → a = b := by
  intro a
  induction a with
  | nil =>
    intro b _ hba
    cases b with
    | nil => rfl
    | cons d bs => rw [strLe] at hba; cases hba
  | cons x as ih =>
    intro b hab hba
    cases b with
    | nil => rw [strLe] at hab; cases hab
    | cons y bs =>
      rw [strLe] at hab hba
      by_cases hxy : x < y
      · rw [if_neg (lt_asymm hxy), if_pos hxy] at hba
        cases hba
      · by_cases hyx : y < x
        · rw [if_neg hxy, if_pos hyx] at hab
          cases hab
        · have hxy' : x = y := le_antisymm (not_lt.mp hyx) (not_lt.mp hxy)
          subst hxy'
          rw [if_neg hxy, if_neg hyx] at hab hba
          rw [ih bs hab hba]

theorem pySorted_perm_eq {l1 l2 : List PyStr} (h : l1.Perm l2) :
    pySorted l1 = pySorted l2 := by
  letI : IsAntisymm PyStr (fun a b => strLe a b = true) :=
    ⟨fun a b => strLe_antisymm a b⟩
  have hp : (pySorted l1).Perm (pySorted l2) :=
    (List.mergeSort_perm l1 strLe).trans (h.trans (List.mergeSort_perm l2 strLe).symm)
  refine @List.eq_of_perm_of_sorted _ (fun a b => strLe a b = true) _ _ _ hp ?_ ?_ <;>
    exact List.sorted_mergeSort
      (fun a b c hab hbc => strLe_trans a b c hab hbc)
      (fun a b => by
        rcases strLe_total a b with h' | h'
        · simp [h']
        · simp [h']) _

theorem digitChar_inj {a b : Nat} (h : digitChar a = digitChar b) :
    a % 10 = b % 10 := by
  have hd : ∀ x, x < 10 → ∀ y, y < 10 → digitChar x = digitChar y → x = y := by decide
  have hx : digitChar (a % 10) = digitChar a := by
    rw [digitChar, digitChar, Nat.mod_mod_of_dvd]
    exact dvd_refl 10
  have hy : digitChar (b % 10) = digitChar b := by
    rw [digitChar, digitChar, Nat.mod_mod_of_dvd]
    exact dvd_refl 10
  exact hd _ (Nat.mod_lt a (by norm_num)) _ (Nat.mod_lt b (by norm_num))
    (hx.trans (h.trans hy.symm))

theorem pad2_inj {a b : Nat} (ha : a < 100) (hb : b < 100)
    (h : pad2 a = pad2 b) : a = b := by
  rw [pad2, pad2] at h
  injection h with h1 h2
  injection h2 with h2 _
  have e1 := digitChar_inj h1
  have e2 := digitChar_inj h2
  omega

theorem pad4_inj {a b : Nat} (ha : a < 10000) (hb : b < 10000)
    (h : pad4 a = pad4 b) : a = b := by
  rw [pad4, pad4] at h
  injection h with h1 h2
  injection h2 with h2 h3
  injection h3 with h3 h4
  injection h4 with h4 _
  have e1 := digitChar_inj h1
  have e2 := digitChar_inj h2
  have e3 := digitChar_inj h3
  have e4 := digitChar_inj h4
  omega

theorem isoformat_length (dt : PyDateTime) : (isoformat dt).length = 25 := by
  simp [isoformat, pad4, pad2]

theorem isoformat_inj {d1 d2 : PyDateTime} (h1 : validDT d1) (h2 : validDT d2)
    (h : isoformat d1 = isoformat d2) : d1 = d2 := by
  rw [isoformat, isoformat] at h
  simp only [List.append_assoc, List.cons_append] at h
  obtain ⟨hy, h⟩ := List.append_inj h (by simp [pad4])
  injection h with _ h
  obtain ⟨hmo, h⟩ := List.append_inj h (by simp [pad2])
  injection h with _ h
  obtain ⟨hd, h⟩ := List.append_inj h (by simp [pad2])
  injection h with _ h
  obtain ⟨hh, h⟩ := List.append_inj h (by simp [pad2])
  injection h with _ h
  obtain ⟨hmi, h⟩ := List.append_inj h (by simp [pad2])
  injection h with _ h
  obtain ⟨hs, _⟩ := List.append_inj h (by simp [pad2])
  obtain ⟨hy1, hy2, hy3, hy4, hy5, hy6⟩ := h1
  obtain ⟨hz1, hz2, hz3, hz4, hz5, hz6⟩ := h2
  cases d1
  cases d2
  simp only [PyDateTime.mk.injEq]
  exact ⟨pad4_inj hy1 hz1 hy, pad2_inj hy2 hz2 hmo, pad2_inj hy3 hz3 hd,
    pad2_inj hy4 hz4 hh, pad2_inj hy5 hz5 hmi, pad2_inj hy6 hz6 hs⟩

theorem timeRangeJson_inj {s1 e1 s2 e2 : PyDateTime}
    (hv : validDT s1 ∧ validDT e1 ∧ validDT s2 ∧ validDT e2)
    (h : timeRangeJson s1 e1 = timeRangeJson s2 e2) : s1 = s2 ∧ e1 = e2 := by
  rw [timeRangeJson, timeRangeJson] at h
  simp only [List.append_assoc] at h
  have h' := List.append_cancel_left h
  obtain ⟨he, h2⟩ := List.append_inj h' (by rw [isoformat_length, isoformat_length])
  have h3 := List.append_cancel_left h2
  obtain ⟨hs, _⟩ := List.append_inj h3 (by rw [isoformat_length, isoformat_length])
  exact ⟨isoformat_inj hv.1 hv.2.2.1 hs, isoformat_inj hv.2.1 hv.2.2.2 he⟩

theorem escSq_cancel : ∀ (a b x y : PyStr),
    escSq a ++ '\'' :: x = escSq b ++ '\'' :: y → a = b ∧ x = y := by
  intro a
  induction a with
  | nil =>
    intro b x y h
    cases b with
    | nil =>
      simp only [escSq, List.nil_append] at h
      injection h with _ h2
      exact ⟨rfl, h2⟩
    | cons d bs =>
      simp only [escSq, List.nil_append] at h
      by_cases hd1 : d = '\\'
      · rw [if_pos hd1] at h
        simp only [List.cons_append] at h
        injection h with h1 _
        exact absurd h1 (by decide)
      · rw [if_neg hd1] at h
        by_cases hd2 : d = '\''
        · rw [if_pos hd2] at h
          simp only [List.cons_append] at h
          injection h with h1 _
          exact absurd h1 (by decide)
        · rw [if_neg hd2] at h
          simp only [List.cons_append] at h
          injection h with h1 _
          exact absurd h1.symm hd2
  | cons c as ih =>
    intro b x y h
    cases b with
    | nil =>
      simp only [escSq, List.nil_append] at h
      by_cases hc1 : c = '\\'
      · rw [if_pos hc1] at h
        simp only [List.cons_append] at h
        injection h with h1 _
        exact absurd h1 (by decide)
      · rw [if_neg hc1] at h
        by_cases hc2 : c = '\''
        · rw [if_pos hc2] at h
          simp only [List.cons_append] at h
          injection h with h1 _
          exact absurd h1 (by decide)
        · rw [if_neg hc2] at h
          simp only [List.cons_append] at h
          injection h with h1 _
          exact absurd h1 hc2
    | cons d bs =>
      simp only [escSq] at h
      by_cases hc1 : c = '\\'
      · rw [if_pos hc1] at h
        by_cases hd1 : d = '\\'
        · rw [if_pos hd1] at h
          simp only [List.cons_append] at h
          injection h with _ h
          injection h with _ h
          obtain ⟨hab, hxy⟩ := ih bs x y h
          exact ⟨by rw [hc1, hd1, hab], hxy⟩
        · rw [if_neg hd1] at h
          by_cases hd2 : d = '\''
          · rw [if_pos hd2] at h
            simp only [List.cons_append] at h
            injection h with _ h
            injection h with h2 _
            exact absurd h2 (by decide)
          · rw [if_neg hd2] at h
            simp only [List.cons_append] at h
            injection h with h1 _
            exact absurd h1.symm hd1
      · rw [if_neg hc1] at h
        by_cases hc2 : c = '\''
        · rw [if_pos hc2] at h
          by_cases hd1 : d = '\\'
          · rw [if_pos hd1] at h
            simp only [List.cons_append] at h
            injection h with _ h
            injection h with h2 _
            exact absurd h2 (by decide)
          · rw [if_neg hd1] at h
            by_cases hd2 : d = '\''
            · rw [if_pos hd2] at h
              simp only [List.cons_append] at h
              injection h with _ h
              injection h with _ h
              obtain ⟨hab, hxy⟩ := ih bs x y h
              exact ⟨by rw [hc2, hd2, hab], hxy⟩
            · rw [if_neg hd2] at h
              simp only [List.cons_append] at h
              injection h with h1 _
              exact absurd h1.symm hd1
        · rw [if_neg hc2] at h
          by_cases hd1 : d = '\\'
          · rw [if_pos hd1] at h
            simp only [List.cons_append] at h
            injection h with h1 _
            exact absurd h1 hc1
          · rw [if_neg hd1] at h
            by_cases hd2 : d = '\''
            · rw [if_pos hd2] at h
              simp only [List.cons_append] at h
              injection h with h1 _
              exact absurd h1 hc1
            · rw [if_neg hd2] at h
              simp only [List.cons_append] at h
              injection h with h1 h
              obtain ⟨hab, hxy⟩ := ih bs x y h
              exact ⟨by rw [h1, hab], hxy⟩

theorem escDq_cancel : ∀ (a b x y : PyStr), ¬ '"' ∈ a → ¬ '"' ∈ b →
    escDq a ++ '"' :: x = escDq b ++ '"' :: y → a = b ∧ x = y := by
  intro a
  induction a with
  | nil =>
    intro b x y _ hqb h
    cases b with
    | nil =>
      simp only [escDq, List.nil_append] at h
      injection h with _ h2
      exact ⟨rfl, h2⟩
    | cons d bs =>
      simp only [escDq, List.nil_append] at h
      by_cases hd1 : d = '\\'
      · rw [if_pos hd1] at h
        simp only [List.cons_append] at h
        injection h with h1 _
        exact absurd h1 (by decide)
      · rw [if_neg hd1] at h
        simp only [List.cons_append] at h
        injection h with h1 _
        exact absurd (h1 ▸ List.mem_cons_self d bs) hqb
  | cons c as ih =>
    intro b x y hqa hqb h
    have hqa' : ¬ '"' ∈ as := fun hm => hqa (List.mem_cons_of_mem c hm)
    have hca : ¬ c = '"' := fun hc => hqa (hc ▸ List.mem_cons_self c as)
    cases b with
    | nil =>
      simp only [escDq, List.nil_append] at h
      by_cases hc1 : c = '\\'
      · rw [if_pos hc1] at h
        simp only [List.cons_append] at h
        injection h with h1 _
        exact absurd h1 (by decide)
      · rw [if_neg hc1] at h
        simp only [List.cons_append] at h
        injection h with h1 _
        exact absurd h1 hca
    | cons d bs =>
      have hqb' : ¬ '"' ∈ bs := fun hm => hqb (List.mem_cons_of_mem d hm)
      have hdb : ¬ d = '"' := fun hd => hqb (hd ▸ List.mem_cons_self d bs)
      simp only [escDq] at h
      by_cases hc1 : c = '\\'
      · rw [if_pos hc1] at h
        by_cases hd1 : d = '\\'
        · rw [if_pos hd1] at h
          simp only [List.cons_append] at h
          injection h with _ h
          injection h with _ h
          obtain ⟨hab, hxy⟩ := ih bs x y hqa' hqb' h
          exact ⟨by rw [hc1, hd1, hab], hxy⟩
        · rw [if_neg hd1] at h
          simp only [List.cons_append] at h
          injection h with h1 _
          exact absurd h1.symm hd1
      · rw [if_neg hc1] at h
        by_cases hd1 : d = '\\'
        · rw [if_pos hd1] at h
          simp only [List.cons_append] at h
          injection h with h1 _
          exact absurd h1 hc1
        · rw [if_neg hd1] at h
          simp only [List.cons_append] at h
          injection h with h1 h
          obtain ⟨hab, hxy⟩ := ih bs x y hqa' hqb' h
          exact ⟨by rw [h1, hab], hxy⟩

theorem pyStrRepr_cancel {a b x y : PyStr}
    (h : pyStrRepr a ++ x = pyStrRepr b ++ y) : a = b ∧ x = y := by
  rw [pyStrRepr, pyStrRepr] at h
  by_cases ha : '\'' ∈ a ∧ ¬ '"' ∈ a
  · rw [if_pos ha] at h
    by_cases hb : '\'' ∈ b ∧ ¬ '"' ∈ b
    · rw [if_pos hb] at h
      simp only [List.cons_append, List.append_assoc, List.singleton_append] at h
      injection h with _ h
      exact escDq_cancel a b x y ha.2 hb.2 h
    · rw [if_neg hb] at h
      simp only [List.cons_append] at h
      injection h with h1 _
      exact absurd h1 (by decide)
  · rw [if_neg ha] at h
    by_cases hb : '\'' ∈ b ∧ ¬ '"' ∈ b
    · rw [if_pos hb] at h
      simp only [List.cons_append] at h
      injection h with h1 _
      exact absurd h1 (by decide)
    · rw [if_neg hb] at h
      simp only [List.cons_append, List.append_assoc, List.singleton_append] at h
      injection h with _ h
      exact escSq_cancel a b x y h

theorem pyStrRepr_length (x : PyStr) : 2 ≤ (pyStrRepr x).length := by
  rw [pyStrRepr]
  split <;> simp

theorem pyTupleBody_single (x : PyStr) : pyTupleBody [x] = pyStrRepr x ++ [')'] :=
  rfl

theorem pyTupleBody_pair (x y : PyStr) (l : List PyStr) :
    pyTupleBody (x :: y :: l) = pyStrRepr x ++ ',' :: ' ' :: pyTupleBody (y :: l) :=
  rfl

theorem pyTupleRepr_nil_eq : pyTupleRepr [] = ['(', ')'] := rfl

theorem pyTupleRepr_single (x : PyStr) :
    pyTupleRepr [x] = '(' :: (pyStrRepr x ++ ',' :: ')' :: []) := rfl

theorem pyTupleRepr_pair (x y : PyStr) (l : List PyStr) :
    pyTupleRepr (x :: y :: l)
      = '(' :: (pyStrRepr x ++ ',' :: ' ' :: pyTupleBody (y :: l)) := rfl

theorem pyTupleBody_inj : ∀ (l1 l2 : List PyStr), l1 ≠ [] → l2 ≠ [] →
    pyTupleBody l1 = pyTupleBody l2 → l1 = l2 := by
  intro l1
  induction l1 with
  | nil => intro l2 h1; exact absurd rfl h1
  | cons a l1' ih =>
    intro l2 _ h2 h
    cases l2 with
    | nil => exact absurd rfl h2
    | cons b l2' =>
      cases l1' with
      | nil =>
        cases l2' with
        | nil =>
          rw [pyTupleBody_single, pyTupleBody_single] at h
          obtain ⟨hab, _⟩ := pyStrRepr_cancel h
          rw [hab]
        | cons b2 l2'' =>
          rw [pyTupleBody_single, pyTupleBody_pair] at h
          obtain ⟨_, htail⟩ := pyStrRepr_cancel h
          injection htail with h1 _
          exact absurd h1 (by decide)
      | cons a2 l1'' =>
        cases l2' with
        | nil =>
          rw [pyTupleBody_pair, pyTupleBody_single] at h
          obtain ⟨_, htail⟩ := pyStrRepr_cancel h
          injection htail with h1 _
          exact absurd h1.symm (by decide)
        | cons b2 l2'' =>
          rw [pyTupleBody_pair, pyTupleBody_pair] at h
          obtain ⟨hab, htail⟩ := pyStrRepr_cancel h
          injection htail with _ htail
          injection htail with _ htail
          rw [hab, ih (b2 :: l2'') (by simp) (by simp) htail]

theorem pyTupleRepr_inj : ∀ {l1 l2 : List PyStr},
    pyTupleRepr l1 = pyTupleRepr l2 → l1 = l2 := by
  have hlen : ∀ (x : PyStr) (r : PyStr), [')'] ≠ pyStrRepr x ++ r := by
    intro x r heq
    have h1 : (1 : Nat) = (pyStrRepr x ++ r).length := by rw [← heq]; rfl
    rw [List.length_append] at h1
    have := pyStrRepr_length x
    omega
  intro l1 l2 h
  match l1, l2 with
  | [], [] => rfl
  | [], [b] =>
    rw [pyTupleRepr_nil_eq, pyTupleRepr_single] at h
    injection h with _ h
    exact absurd h (hlen b _)
  | [], b :: b2 :: bs =>
    rw [pyTupleRepr_nil_eq, pyTupleRepr_pair] at h
    injection h with _ h
    exact absurd h (hlen b _)
  | [a], [] =>
    rw [pyTupleRepr_nil_eq, pyTupleRepr_single] at h
    injection h with _ h
    exact absurd h.symm (hlen a _)
  | a :: a2 :: as, [] =>
    rw [pyTupleRepr_nil_eq, pyTupleRepr_pair] at h
    injection h with _ h
    exact absurd h.symm (hlen a _)
  | [a], [b] =>
    rw [pyTupleRepr_single, pyTupleRepr_single] at h
    injection h with _ h
    obtain ⟨hab, _⟩ := pyStrRepr_cancel h
    rw [hab]
  | [a], b :: b2 :: bs =>
    rw [pyTupleRepr_single, pyTupleRepr_pair] at h
    injection h with _ h
    obtain ⟨_, htail⟩ := pyStrRepr_cancel h
    injection htail with _ htail
    injection htail with h1 _
    exact absurd h1 (by decide)
  | a :: a2 :: as, [b] =>
    rw [pyTupleRepr_pair, pyTupleRepr_single] at h
    injection h with _ h
    obtain ⟨_, htail⟩ := pyStrRepr_cancel h
    injection htail with _ htail
    injection htail with h1 _
    exact absurd h1.symm (by decide)
  | a :: a2 :: as, b :: b2 :: bs =>
    rw [pyTupleRepr_pair, pyTupleRepr_pair] at h
    injection h with _ h
    obtain ⟨hab, htail⟩ := pyStrRepr_cancel h
    injection htail with _ htail
    injection htail with _ htail
    rw [hab, pyTupleBody_inj (a2 :: as) (b2 :: bs) (by simp) (by simp) htail]

/-- Claim C8: the fingerprint is a deterministic function of the sorted
service set, the literal pattern, and the canonical window serialization.
Settled on the pre-MD5 key string both implementations hash (the MD5
digest is a fixed function of it, so determinism and permutation
invariance transfer verbatim; distinctness holds up to MD5 collisions):
permutations of the service list give identical keys (also in the Redis
variant), and changing the pattern, the window (any real `datetime`
window), or the sorted service set changes the key string. -/
theorem cache_key_properties :
    (∀ (l1 l2 : List PyStr) (q : PyStr) (w : PyDateTime × PyDateTime),
        l1.Perm l2 → makeKeyString l1 q w = makeKeyString l2 q w)
      ∧ (∀ (l : List PyStr) (q1 q2 : PyStr) (w : PyDateTime × PyDateTime),
          makeKeyString l q1 w = makeKeyString l q2 w → q1 = q2)
      ∧ (∀ (l : List PyStr) (q : PyStr) (w1 w2 : PyDateTime × PyDateTime),
          validDT w1.1 → validDT w1.2 → validDT w2.1 → validDT w2.2 →
          makeKeyString l q w1 = makeKeyString l q w2 → w1 = w2)
      ∧ (∀ (l1 l2 : List PyStr) (q : PyStr) (w : PyDateTime × PyDateTime),
          makeKeyString l1 q w = makeKeyString l2 q w → pySorted l1 = pySorted l2)
      ∧ (∀ (l1 l2 : List PyStr) (q : PyStr) (w : Nat × Nat),
          l1.Perm l2 → redisKeyString l1 q w = redisKeyString l2 q w) := by
  refine ⟨fun l1 l2 q w hp => ?_, fun l q1 q2 w h => ?_,
    fun l q w1 w2 hv1 hv2 hv3 hv4 h => ?_, fun l1 l2 q w h => ?_,
    fun l1 l2 q w hp => ?_⟩
  · rw [makeKeyString, makeKeyString, pySorted_perm_eq hp]
  · rw [makeKeyString, makeKeyString] at h
    simp only [List.append_assoc, List.cons_append] at h
    have h2 := List.append_cancel_left h
    injection h2 with _ h3
    exact List.append_cancel_right h3
  · rw [makeKeyString, makeKeyString] at h
    simp only [List.append_assoc, List.cons_append] at h
    have h2 := List.append_cancel_left h
    injection h2 with _ h3
    have h4 := List.append_cancel_left h3
    injection h4 with _ h5
    obtain ⟨hs, he⟩ := timeRangeJson_inj ⟨hv1, hv2, hv3, hv4⟩ h5
    obtain ⟨s1, e1⟩ := w1
    obtain ⟨s2, e2⟩ := w2
    simp only [Prod.mk.injEq]
    exact ⟨hs, he⟩
  · rw [makeKeyString, makeKeyString] at h
    have h2 := List.append_cancel_right h
    have h3 := List.append_cancel_right h2
    exact pyTupleRepr_inj h3
  · rw [redisKeyString, redisKeyString, pySorted_perm_eq hp]

theorem cache_key_properties_witness :
    makeKeyString ["hub-us-auth".toList, "hub-ca-auth".toList] "ERROR".toList
        (⟨2026, 1, 6, 14, 0, 0⟩, ⟨2026, 1, 6, 16, 0, 0⟩)
      = makeKeyString ["hub-ca-auth".toList, "hub-us-auth".toList] "ERROR".toList
        (⟨2026, 1, 6, 14, 0, 0⟩, ⟨2026, 1, 6, 16, 0, 0⟩) :=
  cache_key_properties.1 _ _ _ _ (by decide)

end LogAI
